import Mathlib

set_option maxHeartbeats 1000000
set_option maxRecDepth 200000

/-!
Verification of the kiwibot message-routing core.

The Python sources modelled here are `kiwibot/conn_lark.py` (the conversation
log store inside `FeishuPortal`), `kiwibot/conn_cortex.py` (`MessageDealer`),
`kiwibot/conn_router.py` and `kiwibot/conn_macaca.py` (the two `MessageRouter`
variants).  Strings are modelled as `List Char`; Python dicts holding message
records are modelled as JSON values (`Jval`).  Functions named after Python
functions are direct shallow embeddings of those functions.
-/

namespace Kiwibot

/-- A JSON value, the shape of the Python objects that `json.dumps` /
`json.loads` exchange in `conn_lark.py` and `conn_cortex.py`.  Floating-point
numbers never occur in the bot's message records, so the number case carries
an integer only; strings are unicode scalar sequences (lone surrogates, which
CPython strings may hold, are outside the model's domain). -/
inductive Jval where
  | null : Jval
  | bool (b : Bool) : Jval
  | int (n : Int) : Jval
  | str (s : List Char) : Jval
  | arr (items : List Jval) : Jval
  | obj (members : List (List Char × Jval)) : Jval

/-- The sixteen lowercase hexadecimal digit characters, the digits CPython's
`json` module uses in `\uXXXX` escapes. -/
def hexDigitChar (d : Nat) : Char :=
  [ '0', '1', '2', '3', '4', ('5' : Char), '6', '7', '8', '9',
    'a', 'b', ('c' : Char), 'd', 'e', 'f' ].getD d '0'

/-- A `\uXXXX` escape for the code unit `n < 0x10000`. -/
def uEscape (n : Nat) : List Char :=
  [ '\\', 'u', hexDigitChar (n / 4096 % 16), hexDigitChar (n / 256 % 16),
    hexDigitChar (n / 16 % 16), hexDigitChar (n % 16) ]

/-- How `json.dumps` (with its default `ensure_ascii=True`) writes one
character of a string: the two-character shortcuts for `\`, `"`, `\b`, `\f`,
`\n`, `\r`, `\t`; printable ASCII verbatim; everything else as `\uXXXX`,
using a surrogate pair for astral characters. -/
def escChar (c : Char) : List Char :=
  if c = '\\' then ['\\', '\\']
  else if c = '"' then ['\\', '"']
  else if c.toNat = 8 then ['\\', 'b']
  else if c.toNat = 12 then ['\\', 'f']
  else if c = '\n' then ['\\', 'n']
  else if c = '\r' then ['\\', 'r']
  else if c = '\t' then ['\\', 't']
  else if 0x20 ≤ c.toNat ∧ c.toNat ≤ 0x7e then [c]
  else if c.toNat < 0x10000 then uEscape c.toNat
  else uEscape (0xd800 + (c.toNat - 0x10000) / 0x400) ++
       uEscape (0xdc00 + (c.toNat - 0x10000) % 0x400)

/-- The body of a serialized JSON string. -/
def escStr (s : List Char) : List Char := s.flatMap escChar

/-- A serialized JSON string, quotes included. -/
def quoteStr (s : List Char) : List Char := '"' :: (escStr s ++ ['"'])

/-- Decimal digits of `n`, most significant first, prepended to `acc`. -/
def natDigitsAcc (n : Nat) (acc : List Char) : List Char :=
  if n < 10 then hexDigitChar n :: acc
  else natDigitsAcc (n / 10) (hexDigitChar (n % 10) :: acc)
termination_by n
decreasing_by omega

/-- Decimal digits of a natural number, as `repr` prints them. -/
def natDigits (n : Nat) : List Char := natDigitsAcc n []

/-- An integer the way CPython's `json.dumps` writes `int` values. -/
def intChars (i : Int) : List Char :=
  if i < 0 then '-' :: natDigits i.natAbs else natDigits i.natAbs

/-- The indentation prefix at nesting level `k` for `json.dumps(x, indent=4)`. -/
def jindent (k : Nat) : List Char := List.replicate (4 * k) ' '

mutual

/-- `json.dumps(v, indent=4)` as called by `FeishuPortal._log_communication`
(`conn_lark.py`): pretty-printed, ASCII-only, `", "`-free separators — items
are separated by `",\n" + indent`, keys by `": "`. -/
def pyDump (k : Nat) : Jval → List Char
  | .null => ['n', ('u' : Char), 'l', 'l']
  | .bool true => ['t', ('r' : Char), 'u', 'e']
  | .bool false => ['f', ('a' : Char), 'l', 's', 'e']
  | .int n => intChars n
  | .str s => quoteStr s
  | .arr [] => ['[', ']']
  | .arr (x :: xs) =>
      '[' :: '\n' :: (jindent (k + 1) ++ pyDumpItems (k + 1) (x :: xs)) ++
        '\n' :: (jindent k ++ [']'])
  | .obj [] => ['{', '}']
  | .obj (m :: ms) =>
      '{' :: '\n' :: (jindent (k + 1) ++ pyDumpMembers (k + 1) (m :: ms)) ++
        '\n' :: (jindent k ++ ['}'])

/-- The comma-and-newline separated items of a nonempty array, each already
sitting after its indentation (the separator carries the next indent). -/
def pyDumpItems (k : Nat) : List Jval → List Char
  | [] => []
  | [x] => pyDump k x
  | x :: y :: xs =>
      pyDump k x ++ ',' :: '\n' :: (jindent k ++ pyDumpItems k (y :: xs))

/-- The members of a nonempty object, `"key": value` joined by `",\n" + indent`. -/
def pyDumpMembers (k : Nat) : List (List Char × Jval) → List Char
  | [] => []
  | [(key, v)] => quoteStr key ++ ':' :: ' ' :: pyDump k v
  | (key, v) :: m :: ms =>
      quoteStr key ++ ':' :: ' ' :: pyDump k v ++
        ',' :: '\n' :: (jindent k ++ pyDumpMembers k (m :: ms))

end

/-! ### The loader's parser

`MessageDealer._get_historical_msg` (`conn_cortex.py`) parses the repaired log
file with `json.loads`.  The embedding below mirrors CPython's `json` scanner
on the fragment the bot exercises: whitespace is `' '`, `'\t'`, `'\n'`,
`'\r'`; strings are strict (raw control characters rejected) with the full
escape table including `\uXXXX` and surrogate pairs (lone surrogates, legal
for CPython but not representable as Lean `Char`s, make the model parser
fail); numbers are accepted only when integral (a fraction or exponent makes
the model parser fail, as floats are outside the model's domain). -/

/-- CPython `json`'s whitespace characters. -/
def isJsonWs (c : Char) : Bool := c = ' ' || c = '\t' || c = '\n' || c = '\r'

/-- Skip JSON whitespace, as the scanner's `_w(s, end).end()` does. -/
def skipJsonWs : List Char → List Char
  | c :: cs => if isJsonWs c then skipJsonWs cs else c :: cs
  | [] => []

/-- The numeric value of one hexadecimal digit (either case, as accepted in
`\uXXXX` escapes). -/
def hexVal (c : Char) : Option Nat :=
  if '0'.toNat ≤ c.toNat ∧ c.toNat ≤ '9'.toNat then some (c.toNat - '0'.toNat)
  else if 'a'.toNat ≤ c.toNat ∧ c.toNat ≤ 'f'.toNat then some (c.toNat - 'a'.toNat + 10)
  else if 'A'.toNat ≤ c.toNat ∧ c.toNat ≤ 'F'.toNat then some (c.toNat - 'A'.toNat + 10)
  else none

/-- Four hexadecimal digits as one code unit. -/
def hex4 (a b c d : Char) : Option Nat := do
  let x ← hexVal a
  let y ← hexVal b
  let z ← hexVal c
  let w ← hexVal d
  pure (((x * 16 + y) * 16 + z) * 16 + w)

/-- The single-character escapes of the scanner's `BACKSLASH` table. -/
def unescapeChar (e : Char) : Option Char :=
  if e = '"' then some '"'
  else if e = '\\' then some '\\'
  else if e = '/' then some '/'
  else if e = 'b' then some (Char.ofNat 8)
  else if e = 'f' then some (Char.ofNat 12)
  else if e = 'n' then some '\n'
  else if e = 'r' then some '\r'
  else if e = 't' then some '\t'
  else none

/-- One step of `py_scanstring`: from a position inside a string literal,
either reach the closing quote (`some (none, rest)`), decode one character —
verbatim, a table escape, a `\uXXXX` escape, or a surrogate pair
(`some (some c, rest)`) — or fail (`none`): on a truncated input, an unknown
escape, a raw control character (strict mode), or a lone surrogate (legal
for CPython but not representable as a Lean `Char`). -/
def decodeOne : List Char → Option (Option Char × List Char)
  | [] => none
  | c :: rest =>
    if c = '"' then some (none, rest)
    else if c = '\\' then
      match rest with
      | [] => none
      | e :: r =>
        if e = 'u' then
          match r with
          | h1 :: h2 :: h3 :: h4 :: r2 =>
            match hex4 h1 h2 h3 h4 with
            | none => none
            | some n =>
              if 0xd800 ≤ n ∧ n ≤ 0xdbff then
                match r2 with
                | b1 :: b2 :: g1 :: g2 :: g3 :: g4 :: r3 =>
                  if b1 = '\\' ∧ b2 = 'u' then
                    match hex4 g1 g2 g3 g4 with
                    | none => none
                    | some n2 =>
                      if 0xdc00 ≤ n2 ∧ n2 ≤ 0xdfff then
                        some (some (Char.ofNat (0x10000 + (n - 0xd800) * 0x400 + (n2 - 0xdc00))),
                              r3)
                      else none
                  else none
                | _ => none
              else if 0xdc00 ≤ n ∧ n ≤ 0xdfff then none
              else some (some (Char.ofNat n), r2)
          | _ => none
        else
          match unescapeChar e with
          | some u => some (some u, r)
          | none => none
    else if c.toNat < 0x20 then none
    else some (some c, rest)

/-- Parse a string body after the opening quote, returning the decoded
characters and the remainder after the closing quote (`py_scanstring`'s
scan loop).  Fuel only bounds the iteration count; callers pass more than
one unit per input character, which a step can never exhaust since every
step consumes at least one character. -/
def parseStrBody : Nat → List Char → Option (List Char × List Char)
  | 0, _ => none
  | fuel + 1, l =>
    match decodeOne l with
    | none => none
    | some (none, rest) => some ([], rest)
    | some (some c, rest) => (parseStrBody fuel rest).map (fun p => (c :: p.1, p.2))

/-- Is `c` a decimal digit character? -/
def isDigitChar (c : Char) : Bool := '0'.toNat ≤ c.toNat && c.toNat ≤ '9'.toNat

/-- The maximal leading run of decimal digits and the remainder. -/
def takeDigitRun : List Char → List Char × List Char
  | [] => ([], [])
  | c :: cs =>
    if isDigitChar c then
      let p := takeDigitRun cs
      (c :: p.1, p.2)
    else ([], c :: cs)

/-- The number a digit run denotes. -/
def digitRunVal (ds : List Char) : Nat :=
  ds.foldl (fun acc c => acc * 10 + (c.toNat - '0'.toNat)) 0

/-- The integer denoted by an optional sign and a digit-run value. -/
def intOfParts (sgn : Bool) (n : Nat) : Int :=
  if sgn then -(n : Int) else (n : Int)

/-- The unsigned part of an integer literal: a digit run with no superfluous
leading zero, not followed by a fraction or exponent (a float literal is
outside the model's domain, so the model parser fails on it rather than
approximating). -/
def parseUIntTok (sgn : Bool) (body : List Char) : Option (Int × List Char) :=
  match takeDigitRun body with
  | ([], _) => none
  | (d :: ds, rest) =>
    if d = '0' ∧ ds ≠ [] then none
    else
      match rest with
      | [] => some (intOfParts sgn (digitRunVal (d :: ds)), [])
      | c :: _ =>
        if c = '.' ∨ c = 'e' ∨ c = 'E' then none
        else some (intOfParts sgn (digitRunVal (d :: ds)), rest)

/-- Parse an integer literal as the scanner's `NUMBER_RE` plus `parse_int`
does: optional minus, then the unsigned part. -/
def parseIntTok (l : List Char) : Option (Int × List Char) :=
  if l.head? = some '-' then parseUIntTok true l.tail else parseUIntTok false l

mutual

/-- `scan_once` on a value: the input must begin at the value's first
character (callers skip whitespace).  The fuel argument only bounds
recursion depth; `pyLoads` passes more than any input can consume.  The
literal checks mirror the scanner's `string.startswith('null', idx)` tests. -/
def parseVal : Nat → List Char → Option (Jval × List Char)
  | 0, _ => none
  | fuel + 1, l =>
    match l with
    | [] => none
    | c :: r =>
      if c = '{' then
        if (skipJsonWs r).head? = some '}' then some (.obj [], (skipJsonWs r).tail)
        else (parseMembersF fuel (skipJsonWs r)).map (fun p => (.obj p.1, p.2))
      else if c = '[' then
        if (skipJsonWs r).head? = some ']' then some (.arr [], (skipJsonWs r).tail)
        else (parseItemsF fuel (skipJsonWs r)).map (fun p => (.arr p.1, p.2))
      else if c = '"' then
        (parseStrBody (r.length + 1) r).map (fun p => (Jval.str p.1, p.2))
      else if l.take 4 = ['n', 'u', 'l', 'l'] then some (.null, l.drop 4)
      else if l.take 4 = ['t', 'r', 'u', 'e'] then some (.bool true, l.drop 4)
      else if l.take 5 = ['f', 'a', 'l', 's', 'e'] then some (.bool false, l.drop 5)
      else if c = '-' ∨ isDigitChar c then
        (parseIntTok l).map (fun p => (Jval.int p.1, p.2))
      else none

/-- One or more `"key": value` members up to the closing brace
(`JSONObject`); entered at the first key's opening quote. -/
def parseMembersF : Nat → List Char → Option (List (List Char × Jval) × List Char)
  | 0, _ => none
  | fuel + 1, l =>
    if l.head? = some '"' then
      match parseStrBody (l.tail.length + 1) l.tail with
      | none => none
      | some (key, r1) =>
        if (skipJsonWs r1).head? = some ':' then
          match parseVal fuel (skipJsonWs (skipJsonWs r1).tail) with
          | none => none
          | some (v, r3) =>
            if (skipJsonWs r3).head? = some ',' then
              (parseMembersF fuel (skipJsonWs (skipJsonWs r3).tail)).map
                (fun p => ((key, v) :: p.1, p.2))
            else if (skipJsonWs r3).head? = some '}' then
              some ([(key, v)], (skipJsonWs r3).tail)
            else none
        else none
    else none

/-- One or more comma-separated items up to the closing bracket
(`JSONArray`); entered at the first item's first character. -/
def parseItemsF : Nat → List Char → Option (List Jval × List Char)
  | 0, _ => none
  | fuel + 1, l =>
    match parseVal fuel l with
    | none => none
    | some (v, r) =>
      if (skipJsonWs r).head? = some ',' then
        (parseItemsF fuel (skipJsonWs (skipJsonWs r).tail)).map (fun p => (v :: p.1, p.2))
      else if (skipJsonWs r).head? = some ']' then some ([v], (skipJsonWs r).tail)
      else none

end

/-- `json.loads`: skip leading whitespace, scan one value, require only
whitespace after it. -/
def pyLoads (s : List Char) : Option Jval :=
  match parseVal (s.length + 1) (skipJsonWs s) with
  | none => none
  | some (j, rest) => if skipJsonWs rest = [] then some j else none

/-! ### The conversation log store -/

/-- `FeishuPortal._log_communication` (`conn_lark.py`): appends
`json.dumps(message_log, indent=4) + '\n'` to the log file (modelled as the
file's character content; the lock only serializes writers). -/
def log_communication (file : List Char) (message_log : Jval) : List Char :=
  file ++ pyDump 0 message_log ++ ['\n']

/-- The loader's repair step, `s.replace('}\n{', '},\n{')` specialized to its
constant arguments: CPython `str.replace` scans left to right, replacing
non-overlapping occurrences, with scanning resuming after each replacement. -/
def braceRepair : List Char → List Char
  | c1 :: c2 :: c3 :: rest =>
    if c1 = '}' ∧ c2 = '\n' ∧ c3 = '{' then
      '}' :: ',' :: '\n' :: '{' :: braceRepair rest
    else c1 :: braceRepair (c2 :: c3 :: rest)
  | l => l

/-- The load phase of `MessageDealer._get_historical_msg` (`conn_cortex.py`):
wrap the repaired file in brackets, `json.loads` it, and expect the flat list
of logged messages.  A parse failure is a raised exception, modelled as
`none`. -/
def load_all (file : List Char) : Option (List Jval) :=
  match pyLoads ('[' :: (braceRepair file ++ [']'])) with
  | some (.arr msgs) => some msgs
  | _ => none

/-- Python dict member access `obj[key]` on a parsed JSON object: `json.loads`
builds a `dict`, so a duplicated key keeps its last value; a missing key or a
non-dict raises, modelled as `none`. -/
def dictGet (j : Jval) (key : List Char) : Option Jval :=
  match j with
  | .obj ms => ms.foldl (fun acc kv => if kv.1 = key then some kv.2 else acc) none
  | _ => none

/-- The key string `'chat_id'`. -/
def chatIdKey : List Char := "chat_id".data

/-- One step of the grouping loop in `_get_historical_msg`: look up
`msg['chat_id']` and append the message to that chat's list, creating the
entry at the end on first sight (Python dicts preserve insertion order).
The loop's dict keys are the chat-id strings; a message without a string
`chat_id` raises, modelled as `none` (every producer writes a string). -/
def groupStep (groups : List (List Char × List Jval)) (msg : Jval) :
    Option (List (List Char × List Jval)) :=
  match dictGet msg chatIdKey with
  | some (.str cid) =>
    if (groups.map Prod.fst).contains cid then
      some (groups.map (fun kv => if kv.1 = cid then (kv.1, kv.2 ++ [msg]) else kv))
    else some (groups ++ [(cid, [msg])])
  | _ => none

/-- The grouping loop of `_get_historical_msg`, from a given accumulator. -/
def groupByChatFrom (groups : List (List Char × List Jval)) :
    List Jval → Option (List (List Char × List Jval))
  | [] => some groups
  | m :: rest =>
    match groupStep groups m with
    | some groups2 => groupByChatFrom groups2 rest
    | none => none

/-- Grouping the loaded messages by `chat_id`, as `_get_historical_msg` does
after parsing. -/
def group_by_chat (msgs : List Jval) : Option (List (List Char × List Jval)) :=
  groupByChatFrom [] msgs

/-- A canonical message record as packed by `FeishuPortal.get_pack_msg`
(`conn_lark.py`): eight fields, all strings except `content`, which is the
`{"text": ...}` payload of a text message. -/
structure LogMsg where
  timestamp : List Char
  chat_type : List Char
  message_type : List Char
  chat_id : List Char
  message_id : List Char
  sender_id : List Char
  update_time : List Char
  content_text : List Char

/-- The Python dict `get_pack_msg` builds, as a JSON value (field order is
the dict's insertion order, which `json.dumps` preserves). -/
def logMsgJson (m : LogMsg) : Jval :=
  .obj [ ("timestamp".data, .str m.timestamp),
         ("chat_type".data, .str m.chat_type),
         ("message_type".data, .str m.message_type),
         (chatIdKey, .str m.chat_id),
         ("message_id".data, .str m.message_id),
         ("sender_id".data, .str m.sender_id),
         ("update_time".data, .str m.update_time),
         ("content".data, .obj [("text".data, .str m.content_text)]) ]

/-! ### The message router (`conn_router.py`) -/

/-- A message dict as the routers handle it: the fields of the synthetic
template built by `register_timed_event`, with `content` reduced to its
`text` payload (the only part the routers read or write). -/
structure RMsg where
  chat_type : List Char
  message_type : List Char
  chat_id : List Char
  sender_id : List Char
  update_time : List Char
  text : List Char
deriving DecidableEq

/-- What `recv_queue.get(timeout=1)` yields in one iteration of the dispatch
loop: a message, or a `queue.Empty` timeout. -/
inductive RecvEvent where
  | timeout : RecvEvent
  | msg (m : RMsg) : RecvEvent

/-- A Python exception as the dispatch loop can observe it: `queue.Empty`
(the only class its `except` clause names) or anything else. -/
inductive PyExc where
  | queueEmpty : PyExc
  | other (cls : List Char) : PyExc

/-- `MessageRouter._single_response` (`conn_router.py`) viewed as a pure
function: `copy.deepcopy(msg)` then overwrite the copy's `content['text']`
with `self.message_dealer(msg['content']['text'])`.  (The heap-level model
`single_response_heap` below justifies this pure view.) -/
def single_response (dealer : List Char → List Char) (msg : RMsg) : RMsg :=
  { msg with text := dealer msg.text }

/-- The default `message_dealer` installed by `MessageRouter.__init__`:
`lambda x: f"Received: {x}"`. -/
def default_dealer (x : List Char) : List Char := "Received: ".data ++ x

/-- `MessageRouter._action_then_response` (`conn_router.py`): deep-copy the
template, and only when its text is the literal `'time'` replace the copy's
text with the current-time string; `now` stands for the formatted
`time.strftime` result. -/
def action_then_response (now : List Char) (msg : RMsg) : RMsg :=
  if msg.text = "time".data then { msg with text := "Time now: ".data ++ now } else msg

/-- `MessageRouter.run` (`conn_router.py`), the dispatch loop, over a finite
schedule of queue events, with a dealer that may raise.  The loop body is
`try: msg = get(timeout=1); put(_single_response(msg)) except queue.Empty:
continue` — so a `queue.Empty` (from the timeout, or raised by the dealer)
is caught and the loop continues, while any other exception propagates out
of `run`, ending the thread; the Bool records whether that happened.
Returned are the messages put on `send_queue`, in order. -/
def dispatch_loop (dealer : List Char → Except PyExc (List Char)) :
    List RecvEvent → List RMsg × Bool
  | [] => ([], false)
  | .timeout :: rest => dispatch_loop dealer rest
  | .msg m :: rest =>
    match dealer m.text with
    | .ok t =>
      let p := dispatch_loop dealer rest
      ({ m with text := t } :: p.1, p.2)
    | .error .queueEmpty => dispatch_loop dealer rest
    | .error (.other _) => ([], true)

/-- A dealer that processes every message without raising, wrapping a pure
dealer function — the shape `set_message_dealer` installs in normal
operation. -/
def pure_dealer (f : List Char → List Char) (x : List Char) : Except PyExc (List Char) :=
  .ok (f x)

/-- `MessageRouter._timed_event_handler` (`conn_router.py`) as a trace
function.  Each list entry stands for one `event.wait(interval)` call: its
Bool is that wait's return value (`True` exactly when the event was set
during or before the wait), its string the clock at that iteration.  On an
uninterrupted wait the handler puts `_action_then_response(message)` on
`send_queue` and loops; on an interrupted wait it puts nothing, rechecks
`event.is_set()` — now true — and exits. -/
def timed_event_handler (message : RMsg) : List (Bool × List Char) → List RMsg
  | [] => []
  | (interrupted, now) :: rest =>
    if interrupted then []
    else action_then_response now message :: timed_event_handler message rest

/-- The synthetic template dict `register_timed_event` builds (its
`user_name` argument is unused by the source; `chat_id`, `sender_id` and
`update_time` are the hardcoded literals of `conn_router.py`). -/
def timer_template (action_string : List Char) : RMsg :=
  { chat_type := "p2p".data,
    message_type := "text".data,
    chat_id := "oc_11b180e1d953d36f1b2a85c849be703f".data,
    sender_id := "ou_0b2ada4556de2f7b7ddc6557b6f4292b".data,
    update_time := "2025-01-04T01:55:43.947".data,
    text := action_string }

/-- The `MessageRouter` state that `register_timed_event` /
`unregister_timed_event` touch: the `timed_events` dict (timer id ↦
(interval, template, event)), the id counter, and the `threading.Event`
objects, modelled as an allocator plus a set-flag table. -/
structure RouterState where
  timer_id_counter : Nat
  timed_events : Nat → Option (Nat × RMsg × Nat)
  event_next : Nat
  event_set : Nat → Bool

/-- `MessageRouter.__init__`: no timed events, counter at zero. -/
def router_init : RouterState :=
  { timer_id_counter := 0,
    timed_events := fun _ => none,
    event_next := 0,
    event_set := fun _ => false }

/-- `MessageRouter.register_timed_event` (`conn_router.py`): build the
template, allocate a fresh `threading.Event`, store
`(interval, message, event)` under the current counter value, start the
timer thread, and return the counter as the handle. -/
def register_timed_event (s : RouterState) (interval : Nat)
    (_user_name action_string : List Char) : Nat × RouterState :=
  let message := timer_template action_string
  let ev := s.event_next
  let tid := s.timer_id_counter
  (tid,
   { timer_id_counter := tid + 1,
     timed_events := fun i => if i = tid then some (interval, message, ev) else s.timed_events i,
     event_next := ev + 1,
     event_set := s.event_set })

/-- `MessageRouter.unregister_timed_event` (`conn_router.py`): if the handle
is a key of `timed_events`, set its event and delete the entry; otherwise do
nothing. -/
def unregister_timed_event (s : RouterState) (timer_id : Nat) : RouterState :=
  match s.timed_events timer_id with
  | some (_, _, ev) =>
    { s with
      event_set := fun e => if e = ev then true else s.event_set e,
      timed_events := fun i => if i = timer_id then none else s.timed_events i }
  | none => s

/-! ### Object identity: `_single_response` versus the legacy router

`copy.deepcopy` and in-place dict mutation only differ observably at the
level of object identity, so this fragment is modelled with an explicit
heap of content dicts: a message holds a reference to its mutable
`content` cell. -/

/-- The mutable `content` dict of a message (its `text` entry). -/
structure ContentCell where
  text : List Char
deriving DecidableEq

/-- A message dict holding a reference to its content cell. -/
structure HMsg where
  chat_id : List Char
  contentRef : Nat
deriving DecidableEq

/-- A heap of content cells and a fresh-reference allocator. -/
structure Heap where
  cells : Nat → ContentCell
  next : Nat

/-- `copy.deepcopy(msg)`: the copy's `content` is a fresh cell holding the
same text; the original's cell is untouched. -/
def heap_deepcopy (h : Heap) (m : HMsg) : Heap × HMsg :=
  (⟨fun i => if i = h.next then h.cells m.contentRef else h.cells i, h.next + 1⟩,
   { m with contentRef := h.next })

/-- `obj['content']['text'] = t`: overwrite the text of the referenced cell. -/
def heap_set_text (h : Heap) (r : Nat) (t : List Char) : Heap :=
  { h with cells := fun i => if i = r then { text := t } else h.cells i }

/-- `MessageRouter._single_response` (`conn_router.py`) at heap level:
`response = copy.deepcopy(msg); response['content']['text'] =
self.message_dealer(msg['content']['text']); return response`. -/
def single_response_heap (dealer : List Char → List Char) (h : Heap) (m : HMsg) :
    Heap × HMsg :=
  let copied := heap_deepcopy h m
  let h2 := heap_set_text copied.1 copied.2.contentRef (dealer ((h.cells m.contentRef).text))
  (h2, copied.2)

/-- The legacy dispatch-loop body of `conn_macaca.py`'s `MessageRouter.run`:
`msg['content']['text'] = f"Received: {msg['content']['text']}"` — an
in-place mutation of the in-flight message, with no copy. -/
def macaca_run_step (h : Heap) (m : HMsg) : Heap :=
  heap_set_text h m.contentRef ("Received: ".data ++ (h.cells m.contentRef).text)

/-! ### The message dealer (`conn_cortex.py`) -/

/-- A mention record, as the spec's data model describes it
(`{key, display_name, tenant_key, ids}`; only `display_name` is consulted). -/
structure Mention where
  key : List Char
  display_name : List Char
  tenant_key : List Char
deriving DecidableEq

/-- A message dict as `MessageDealer` reads it: the canonical fields its
methods access. -/
structure CMsg where
  chat_type : List Char
  message_type : List Char
  chat_id : List Char
  message_id : Option (List Char)
  sender_id : List Char
  text : List Char
  mentions : List Mention
deriving DecidableEq

/-- Modelled from the spec: `is_at_user` is imported by `conn_cortex.py`
from `conn_lark.py` but is absent from the available sources.  Per the spec
(§4.3), a group message is addressed to the bot exactly when the bot's name
is the first entry of `mentions`, by exact, case-sensitive display-name
match; with no mentions the message is not addressed to the bot (§8). -/
def is_at_user (msg : CMsg) (name : List Char) : Bool :=
  match msg.mentions with
  | [] => false
  | mention :: _ => mention.display_name = name

/-- `MessageDealer.is_need_to_reply` (`conn_cortex.py`): `True` for a `p2p`
chat; `is_at_user(msg_json, self.name)` for a `group` chat; for any other
`chat_type` the function falls off its end, returning Python's `None`,
modelled as `Option.none`. -/
def is_need_to_reply (name : List Char) (msg : CMsg) : Option Bool :=
  if msg.chat_type = "p2p".data then some true
  else if msg.chat_type = "group".data then some (is_at_user msg name)
  else none

/-- Python truthiness of an optional bool, as `if not self.is_need_to_reply
(msg_json)` evaluates it: `None` is falsy. -/
def pyTruthy : Option Bool → Bool
  | none => false
  | some b => b

/-- The in-memory `chat_history`: a `chat_id`-keyed dict of message lists,
modelled as an insertion-ordered association list. -/
abbrev History : Type := List (List Char × List CMsg)

/-- Dict lookup `chat_history[chat_id]` (first binding; a Python dict has
one binding per key). -/
def histGet : History → List Char → Option (List CMsg)
  | [], _ => none
  | (k, ms) :: rest, cid => if k = cid then some ms else histGet rest cid

/-- `MessageDealer.append_to_history` (`conn_cortex.py`): create the chat's
entry if absent (at the end: dicts preserve insertion order), then append
the message to it. -/
def append_to_history (hist : History) (msg : CMsg) : History :=
  if (histGet hist msg.chat_id).isSome then
    hist.map (fun kv => if kv.1 = msg.chat_id then (kv.1, kv.2 ++ [msg]) else kv)
  else hist ++ [(msg.chat_id, [msg])]

/-- `MessageDealer.get_history_content` (`conn_cortex.py`): the slice
`self.chat_history[chat_id][-3:]` when the chat has history, else `[]`.
The `max_num` parameter exists in the source's signature (default 3) but
the body ignores it — the slice bound is the literal 3. -/
def get_history_content (hist : History) (msg : CMsg) (_max_num : Nat) : List CMsg :=
  match histGet hist msg.chat_id with
  | some history => history.drop (history.length - 3)
  | none => []

/-- The external capabilities `deal_message` consults: the transport's name
lookups and plain-text extractor (`tool_dict['chattool']`), the LLM
(`self.llm.invoke`), and the wall clock (`time.ctime()`). -/
structure DealerEnv where
  get_user_name : List Char → List Char
  get_group_name : List Char → List Char
  get_plain_msg_text : CMsg → List Char
  llm : List (List Char × List Char) → List Char
  ctime : List Char

/-- `MessageDealer.gen_prompt` (`conn_cortex.py`) with a `tool_dict`
installed: a counterpart hint for `p2p` and `group` chats; for any other
`chat_type` the function falls off its end, returning `None`. -/
def gen_prompt (env : DealerEnv) (msg : CMsg) : Option (List Char) :=
  if msg.chat_type = "p2p".data then
    some ("You are chatting with ".data ++ env.get_user_name msg.sender_id ++ ".".data)
  else if msg.chat_type = "group".data then
    some ("You are chatting in a group chat named ".data ++
          env.get_group_name msg.chat_id ++ ".".data)
  else none

/-- Modelled from the spec: `simple_msg_by` is imported by `conn_cortex.py`
from `conn_lark.py` but is absent from the available sources.  Per the spec
(§4.3), it wraps the generated text into a reply addressed back to
`msg.chat_id`, authored by the bot (so history role-mapping recognizes it),
threaded (carrying the original `message_id`) exactly when the original was
a group message, with `message_id` null for direct chats. -/
def simple_msg_by (orig : CMsg) (name : List Char) (text : List Char) : CMsg :=
  { chat_type := orig.chat_type,
    message_type := "text".data,
    chat_id := orig.chat_id,
    message_id := if orig.chat_type = "group".data then orig.message_id else none,
    sender_id := name,
    text := text,
    mentions := [] }

/-- `MessageDealer.deal_message` (`conn_cortex.py`).  When
`is_need_to_reply` is falsy: record the message, return `None`.  Otherwise:
build the system prompt (string concatenation with `gen_prompt`'s result,
which raises `TypeError` — modelled as outer `none` — were it `None`),
append the role-tagged last-3 history and the current text, invoke the LLM,
wrap its answer with `simple_msg_by`, record both messages, and return the
reply.  The result pairs the returned value with the updated history. -/
def deal_message (env : DealerEnv) (name : List Char) (hist : History) (msg : CMsg) :
    Option (Option CMsg × History) :=
  if pyTruthy (is_need_to_reply name msg) then
    match gen_prompt env msg with
    | none => none
    | some hint =>
      let sys : List Char :=
        "You are a helpful assistant, nicknamed: ".data ++ name ++ ".".data ++
        " ".data ++ hint ++ " ".data ++ "local time is ".data ++ env.ctime ++ ".".data
      let history := get_history_content hist msg 3
      let ctx := history.map (fun past =>
        if past.sender_id = name then ("ai".data, env.get_plain_msg_text past)
        else ("human".data, env.get_plain_msg_text past))
      let messages := ("system".data, sys) :: ctx ++
        [("human".data, env.get_plain_msg_text msg)]
      let response := simple_msg_by msg name (env.llm messages)
      some (some response, append_to_history (append_to_history hist msg) response)
  else some (none, append_to_history hist msg)

/-- The keying invariant of the history dict: every message filed under a
chat id carries that chat id. -/
def HistKeyed (hist : History) : Prop :=
  ∀ k ms, (k, ms) ∈ hist → ∀ m ∈ ms, m.chat_id = k

/-- The same invariant for the freshly loaded, JSON-level grouping built by
`_get_historical_msg`. -/
def GroupsKeyed (groups : List (List Char × List Jval)) : Prop :=
  ∀ cid ms, (cid, ms) ∈ groups → ∀ j ∈ ms, dictGet j chatIdKey = some (.str cid)

/-! ### Auxiliary notions used by the correctness proofs -/

/-- A remainder that cannot extend a number literal: empty, or headed by a
character that is neither a digit nor `.`, `e`, `E` (every delimiter the
pretty-printer writes after a value qualifies). -/
def numDelim : List Char → Prop
  | [] => True
  | c :: _ => isDigitChar c = false ∧ c ≠ '.' ∧ c ≠ 'e' ∧ c ≠ 'E'

mutual

/-- Fuel adequate for `parseVal` on a dumped value (one unit per value plus
one per container entry). -/
def jfuelV : Jval → Nat
  | .null => 1
  | .bool _ => 1
  | .int _ => 1
  | .str _ => 1
  | .arr xs => 1 + jfuelI xs
  | .obj ms => 1 + jfuelM ms

/-- Fuel adequate for `parseItemsF` on dumped items. -/
def jfuelI : List Jval → Nat
  | [] => 0
  | x :: xs => 1 + jfuelV x + jfuelI xs

/-- Fuel adequate for `parseMembersF` on dumped members. -/
def jfuelM : List (List Char × Jval) → Nat
  | [] => 0
  | (_, v) :: ms => 1 + jfuelV v + jfuelM ms

end

/-- Does the list contain the three-character pattern `}`, newline, `{` that
`braceRepair` rewrites? -/
def has3 : List Char → Bool
  | c1 :: c2 :: c3 :: rest =>
    (c1 = '}' && c2 = '\n' && c3 = '{') || has3 (c2 :: c3 :: rest)
  | _ => false

/-- No newline in the list is immediately followed by `{` — the invariant of
pretty-printed output that makes the brace repair sound. -/
def nlBraceFree (l : List Char) : Prop :=
  l.Chain' (fun a b => ¬(a = '\n' ∧ b = '{'))

/-! ### Concrete inputs used by the witness theorems -/

/-- A first witness message whose text contains `'}'`, a raw newline and
`'{'` — the characters the log repair heuristic is fragile about. -/
def witMsg1 : LogMsg :=
  { timestamp := "2025-01-04T01:55:43.947".data,
    chat_type := "p2p".data,
    message_type := "text".data,
    chat_id := "oc_wit_chat".data,
    message_id := "om_1".data,
    sender_id := "ou_sender".data,
    update_time := "2025-01-04T01:55:43.947".data,
    content_text := 'a' :: Char.ofNat 125 :: Char.ofNat 10 :: Char.ofNat 123 :: ['b'] }

/-- A second witness message in the same chat. -/
def witMsg2 : LogMsg :=
  { timestamp := "2025-01-04T01:55:50.000".data,
    chat_type := "p2p".data,
    message_type := "text".data,
    chat_id := "oc_wit_chat".data,
    message_id := "om_2".data,
    sender_id := "ou_other".data,
    update_time := "2025-01-04T01:55:50.000".data,
    content_text := "fine".data }

/-- A direct-chat message for the policy witnesses. -/
def witP2p : CMsg :=
  { chat_type := "p2p".data, message_type := "text".data, chat_id := "oc_a".data,
    message_id := some "om_a".data, sender_id := "ou_a".data, text := "hi".data,
    mentions := [] }

/-- A group-chat message whose first mention is the bot. -/
def witGroupAt : CMsg :=
  { chat_type := "group".data, message_type := "text".data, chat_id := "oc_g".data,
    message_id := some "om_g".data, sender_id := "ou_b".data, text := "@Kiwi hello".data,
    mentions := [{ key := "@_user_1".data, display_name := "Kiwi".data,
                   tenant_key := "t".data }] }

/-- A message with an unforeseen `chat_type`. -/
def witOddType : CMsg :=
  { chat_type := "channel".data, message_type := "text".data, chat_id := "oc_c".data,
    message_id := none, sender_id := "ou_c".data, text := "hey".data, mentions := [] }

/-- A group-chat message that does not mention the bot first. -/
def witGroupOther : CMsg :=
  { chat_type := "group".data, message_type := "text".data, chat_id := "oc_g".data,
    message_id := some "om_h".data, sender_id := "ou_d".data, text := "@Ann hi".data,
    mentions := [{ key := "@_user_2".data, display_name := "Ann".data,
                   tenant_key := "t".data }] }

/-- A first inbound message for the dispatch-loop witnesses. -/
def witRMsgA : RMsg :=
  { chat_type := "p2p".data, message_type := "text".data, chat_id := "oc_r".data,
    sender_id := "ou_r".data, update_time := "t1".data, text := "hello".data }

/-- A second inbound message for the dispatch-loop witnesses. -/
def witRMsgB : RMsg :=
  { chat_type := "p2p".data, message_type := "text".data, chat_id := "oc_r".data,
    sender_id := "ou_r".data, update_time := "t2".data, text := "again".data }

/-- A dealer that raises `queue.Empty` on one text and succeeds on the rest —
the raising shape the dispatch loop's `except` clause does catch. -/
def witDealer (t : List Char) : Except PyExc (List Char) :=
  if t = "again".data then Except.error PyExc.queueEmpty
  else Except.ok (default_dealer t)

/-- A concrete environment for the policy witnesses. -/
def witEnv : DealerEnv :=
  { get_user_name := fun _ => "Alice".data,
    get_group_name := fun _ => "Team".data,
    get_plain_msg_text := fun m => m.text,
    llm := fun _ => "ok".data,
    ctime := "Sat Jan  4 01:55:43 2025".data }

/-- A one-chat history of four messages, for the window witness. -/
def witHist : History :=
  [("oc_a".data, [witP2p, witGroupAt, witGroupOther, witOddType])]

/-- A one-cell heap for the identity witnesses. -/
def witHeap : Heap := { cells := fun _ => { text := "hello".data }, next := 1 }

/-- A message referencing the heap's only live cell. -/
def witHMsg : HMsg := { chat_id := "oc_h".data, contentRef := 0 }

/-! ## Lemmas

### Characters, hexadecimal escapes, and the string codec -/

theorem char_valid_range (c : Char) :
    c.toNat < 0xd800 ∨ (0xdfff < c.toNat ∧ c.toNat < 0x110000) := by
  rcases c.valid with h | h
  · exact Or.inl h
  · exact Or.inr h

theorem hexVal_hexDigitChar (d : Nat) (h : d < 16) : hexVal (hexDigitChar d) = some d := by
  interval_cases d <;> decide

theorem hex4_uEscape (n : Nat) (h : n < 0x10000) :
    hex4 (hexDigitChar (n / 4096 % 16)) (hexDigitChar (n / 256 % 16))
      (hexDigitChar (n / 16 % 16)) (hexDigitChar (n % 16)) = some n := by
  have h16 : ∀ m : Nat, m % 16 < 16 := fun m => Nat.mod_lt _ (by omega)
  rw [hex4, hexVal_hexDigitChar _ (h16 _), hexVal_hexDigitChar _ (h16 _),
    hexVal_hexDigitChar _ (h16 _), hexVal_hexDigitChar _ (h16 _)]
  show some _ = some n
  congr 1
  omega

theorem decodeOne_plain (c : Char) (t : List Char) (h1 : c ≠ '"') (h2 : c ≠ '\\')
    (h3 : ¬c.toNat < 0x20) : decodeOne (c :: t) = some (some c, t) := by
  rw [decodeOne.eq_def]
  dsimp only
  rw [if_neg h1, if_neg h2, if_neg h3]

theorem decodeOne_u4 (a b c d : Char) (n : Nat) (t : List Char)
    (hh : hex4 a b c d = some n)
    (hs1 : ¬(0xd800 ≤ n ∧ n ≤ 0xdbff)) (hs2 : ¬(0xdc00 ≤ n ∧ n ≤ 0xdfff)) :
    decodeOne ('\\' :: 'u' :: a :: b :: c :: d :: t) = some (some (Char.ofNat n), t) := by
  rw [decodeOne.eq_def]
  dsimp only
  rw [hh, if_neg (show ('\\' : Char) ≠ '"' by decide), if_pos rfl, if_pos rfl]
  try dsimp only
  rw [if_neg hs1, if_neg hs2]

theorem decodeOne_surrogatePair (a b c d e f g h : Char) (n n2 : Nat) (t : List Char)
    (hh : hex4 a b c d = some n) (hh2 : hex4 e f g h = some n2)
    (hr1 : 0xd800 ≤ n ∧ n ≤ 0xdbff) (hr2 : 0xdc00 ≤ n2 ∧ n2 ≤ 0xdfff) :
    decodeOne ('\\' :: 'u' :: a :: b :: c :: d :: '\\' :: 'u' :: e :: f :: g :: h :: t) =
      some (some (Char.ofNat (0x10000 + (n - 0xd800) * 0x400 + (n2 - 0xdc00))), t) := by
  rw [decodeOne.eq_def]
  dsimp only
  rw [hh, if_neg (show ('\\' : Char) ≠ '"' by decide), if_pos rfl, if_pos rfl]
  try dsimp only
  rw [if_pos hr1]
  try dsimp only
  rw [if_pos ⟨rfl, rfl⟩, hh2]
  try dsimp only
  rw [if_pos hr2]

theorem decodeOne_escChar (c : Char) (t : List Char) :
    decodeOne (escChar c ++ t) = some (some c, t) := by
  by_cases h1 : c = '\\'
  · subst h1; exact rfl
  by_cases h2 : c = '"'
  · subst h2; exact rfl
  by_cases h3 : c.toNat = 8
  · have hc : c = Char.ofNat 8 := by rw [← Char.ofNat_toNat c, h3]
    subst hc; exact rfl
  by_cases h4 : c.toNat = 12
  · have hc : c = Char.ofNat 12 := by rw [← Char.ofNat_toNat c, h4]
    subst hc; exact rfl
  by_cases h5 : c = '\n'
  · subst h5; exact rfl
  by_cases h6 : c = '\r'
  · subst h6; exact rfl
  by_cases h7 : c = '\t'
  · subst h7; exact rfl
  by_cases h8 : 0x20 ≤ c.toNat ∧ c.toNat ≤ 0x7e
  · have he : escChar c = [c] := by
      rw [escChar, if_neg h1, if_neg h2, if_neg h3, if_neg h4, if_neg h5, if_neg h6,
        if_neg h7, if_pos h8]
    rw [he, List.singleton_append, decodeOne_plain c t h2 h1 (by omega)]
  by_cases h9 : c.toNat < 0x10000
  · have he : escChar c = uEscape c.toNat := by
      rw [escChar, if_neg h1, if_neg h2, if_neg h3, if_neg h4, if_neg h5, if_neg h6,
        if_neg h7, if_neg h8, if_pos h9]
    have hns := char_valid_range c
    rw [he, uEscape]
    simp only [List.cons_append, List.nil_append]
    rw [decodeOne_u4 _ _ _ _ c.toNat t (hex4_uEscape _ h9) (by omega) (by omega),
      Char.ofNat_toNat]
  · have he : escChar c =
        uEscape (0xd800 + (c.toNat - 0x10000) / 0x400) ++
        uEscape (0xdc00 + (c.toNat - 0x10000) % 0x400) := by
      rw [escChar, if_neg h1, if_neg h2, if_neg h3, if_neg h4, if_neg h5, if_neg h6,
        if_neg h7, if_neg h8, if_neg h9]
    have hub := char_valid_range c
    have hmod := Nat.mod_lt (c.toNat - 0x10000) (show 0 < 0x400 by omega)
    have hhi : 0xd800 + (c.toNat - 0x10000) / 0x400 < 0x10000 := by omega
    have hlo : 0xdc00 + (c.toNat - 0x10000) % 0x400 < 0x10000 := by omega
    have hch : Char.ofNat (0x10000 + (0xd800 + (c.toNat - 0x10000) / 0x400 - 0xd800) * 0x400 +
        (0xdc00 + (c.toNat - 0x10000) % 0x400 - 0xdc00)) = c := by
      have harith : 0x10000 + (0xd800 + (c.toNat - 0x10000) / 0x400 - 0xd800) * 0x400 +
          (0xdc00 + (c.toNat - 0x10000) % 0x400 - 0xdc00) = c.toNat := by
        have := Nat.div_add_mod (c.toNat - 0x10000) 0x400
        omega
      rw [harith, Char.ofNat_toNat]
    rw [he, uEscape, uEscape]
    simp only [List.cons_append, List.nil_append]
    rw [decodeOne_surrogatePair _ _ _ _ _ _ _ _
        (0xd800 + (c.toNat - 0x10000) / 0x400) (0xdc00 + (c.toNat - 0x10000) % 0x400) t
        (hex4_uEscape _ hhi) (hex4_uEscape _ hlo) (by omega) (by omega), hch]

theorem parseStrBody_escStr (s : List Char) : ∀ (f : Nat) (t : List Char), s.length < f →
    parseStrBody f (escStr s ++ '"' :: t) = some (s, t) := by
  induction s with
  | nil =>
    intro f t hf
    obtain ⟨g, rfl⟩ : ∃ g, f = g + 1 := ⟨f - 1, by omega⟩
    exact rfl
  | cons c cs ih =>
    intro f t hf
    obtain ⟨g, rfl⟩ : ∃ g, f = g + 1 := ⟨f - 1, by omega⟩
    rw [escStr, List.flatMap_cons, List.append_assoc]
    rw [parseStrBody, decodeOne_escChar]
    dsimp only
    rw [show (cs.flatMap escChar : List Char) = escStr cs from rfl]
    rw [ih g t (by simpa using hf)]
    exact rfl

/-! ### The number codec -/

theorem natDigitsAcc_append (n : Nat) : ∀ acc : List Char,
    natDigitsAcc n acc = natDigits n ++ acc := by
  induction n using Nat.strong_induction_on with
  | _ n ih =>
    intro acc
    rw [natDigits, natDigitsAcc.eq_def n acc, natDigitsAcc.eq_def n []]
    rcases Nat.lt_or_ge n 10 with h | h
    · rw [if_pos h, if_pos h, List.singleton_append]
    · rw [if_neg (by omega), if_neg (by omega),
        ih (n / 10) (by omega) (hexDigitChar (n % 10) :: acc),
        ih (n / 10) (by omega) [hexDigitChar (n % 10)],
        List.append_assoc, List.singleton_append]

theorem natDigits_step (n : Nat) :
    natDigits n = (if n < 10 then [] else natDigits (n / 10)) ++ [hexDigitChar (n % 10)] := by
  rw [natDigits, natDigitsAcc.eq_def]
  by_cases h : n < 10
  · simp [h, Nat.mod_eq_of_lt h]
  · simp only [if_neg h]
    exact natDigitsAcc_append (n / 10) [_]

theorem natDigits_ne_nil (n : Nat) : natDigits n ≠ [] := by
  rw [natDigits_step]
  simp

theorem hexDigitChar_digit (d : Nat) (h : d < 10) :
    isDigitChar (hexDigitChar d) = true ∧ (hexDigitChar d).toNat - '0'.toNat = d := by
  interval_cases d <;> exact ⟨by decide, by decide⟩

theorem natDigits_all_digit (n : Nat) : ∀ c ∈ natDigits n, isDigitChar c = true := by
  induction n using Nat.strong_induction_on with
  | _ n ih =>
    rw [natDigits_step]
    intro c hc
    rcases List.mem_append.mp hc with h | h
    · by_cases h10 : n < 10
      · simp [h10] at h
      · exact ih (n / 10) (by omega) c (by simpa [h10] using h)
    · rw [List.mem_singleton] at h
      subst h
      exact (hexDigitChar_digit _ (Nat.mod_lt _ (by omega))).1

theorem digitRunVal_natDigits (n : Nat) : digitRunVal (natDigits n) = n := by
  suffices hgen : ∀ m, ∀ a : Nat, (natDigits m).foldl
      (fun acc c => acc * 10 + (c.toNat - '0'.toNat)) a = a * 10 ^ (natDigits m).length + m by
    have := hgen n 0
    simpa [digitRunVal] using this
  intro m
  induction m using Nat.strong_induction_on with
  | _ m ih =>
    intro a
    rw [natDigits_step]
    by_cases h : m < 10
    · rw [if_pos h, List.nil_append]
      simp only [List.foldl_cons, List.foldl_nil, List.length_cons, List.length_nil]
      have hd := (hexDigitChar_digit (m % 10) (Nat.mod_lt m (by omega))).2
      rw [hd, pow_one]
      omega
    · rw [if_neg h, List.foldl_append, ih (m / 10) (by omega) a]
      simp only [List.foldl_cons, List.foldl_nil, List.length_append, List.length_cons,
        List.length_nil]
      have hd := (hexDigitChar_digit (m % 10) (Nat.mod_lt m (by omega))).2
      rw [hd, pow_succ, ← mul_assoc]
      have hdm := Nat.div_add_mod m 10
      generalize a * 10 ^ (natDigits (m / 10)).length = B
      omega

theorem natDigits_lt10 (n : Nat) (h : n < 10) : natDigits n = [hexDigitChar n] := by
  rw [natDigits_step, if_pos h, Nat.mod_eq_of_lt h, List.nil_append]

theorem natDigits_pos_head (n : Nat) (hn : 1 ≤ n) :
    ∃ d t, natDigits n = d :: t ∧ isDigitChar d = true ∧ d ≠ '0' := by
  induction n using Nat.strong_induction_on with
  | _ n ih =>
    by_cases h : n < 10
    · refine ⟨hexDigitChar n, [], natDigits_lt10 n h, (hexDigitChar_digit n h).1, ?_⟩
      interval_cases n <;> simp_all <;> decide
    · obtain ⟨d, t, hdt, hdig, hd0⟩ := ih (n / 10) (by omega) (by omega)
      refine ⟨d, t ++ [hexDigitChar (n % 10)], ?_, hdig, hd0⟩
      rw [natDigits_step, if_neg h, hdt]
      simp

theorem natDigits_head (n : Nat) :
    ∃ d t, natDigits n = d :: t ∧ isDigitChar d = true ∧ (d = '0' → t = []) := by
  by_cases h0 : n = 0
  · subst h0
    refine ⟨'0', [], ?_, by decide, fun _ => rfl⟩
    rw [natDigits_lt10 0 (by omega)]
    exact rfl
  · obtain ⟨d, t, hdt, hdig, hd0⟩ := natDigits_pos_head n (by omega)
    exact ⟨d, t, hdt, hdig, fun h => absurd h hd0⟩

theorem takeDigitRun_nil_of_delim (l : List Char) (h : numDelim l) :
    takeDigitRun l = ([], l) := by
  match l with
  | [] => rfl
  | c :: t =>
    rw [takeDigitRun, if_neg]
    rw [h.1]
    simp

theorem takeDigitRun_append (ds : List Char) (hds : ∀ c ∈ ds, isDigitChar c = true) :
    ∀ rest : List Char, takeDigitRun rest = ([], rest) →
    takeDigitRun (ds ++ rest) = (ds, rest) := by
  induction ds with
  | nil => intro rest h; simpa using h
  | cons c t ih =>
    intro rest h
    have hc : isDigitChar c = true := hds c (by simp)
    rw [List.cons_append, takeDigitRun, if_pos (by rw [hc])]
    rw [ih (fun x hx => hds x (by simp [hx])) rest h]

theorem digit_head_facts (c : Char) (h : isDigitChar c = true) :
    c ≠ '{' ∧ c ≠ '[' ∧ c ≠ '"' ∧ c ≠ '-' ∧ c ≠ '.' ∧ c ≠ 'e' ∧ c ≠ 'E' ∧
    isJsonWs c = false := by
  refine ⟨?_, ?_, ?_, ?_, ?_, ?_, ?_, ?_⟩
  · intro hc; rw [hc] at h; exact absurd h (by decide)
  · intro hc; rw [hc] at h; exact absurd h (by decide)
  · intro hc; rw [hc] at h; exact absurd h (by decide)
  · intro hc; rw [hc] at h; exact absurd h (by decide)
  · intro hc; rw [hc] at h; exact absurd h (by decide)
  · intro hc; rw [hc] at h; exact absurd h (by decide)
  · intro hc; rw [hc] at h; exact absurd h (by decide)
  · have w1 : c ≠ ' ' := by intro hc; rw [hc] at h; exact absurd h (by decide)
    have w2 : c ≠ '\t' := by intro hc; rw [hc] at h; exact absurd h (by decide)
    have w3 : c ≠ '\n' := by intro hc; rw [hc] at h; exact absurd h (by decide)
    have w4 : c ≠ '\r' := by intro hc; rw [hc] at h; exact absurd h (by decide)
    simp [isJsonWs, w1, w2, w3, w4]

theorem parseUIntTok_natDigits (sgn : Bool) (n : Nat) (rest : List Char) (hr : numDelim rest) :
    parseUIntTok sgn (natDigits n ++ rest) = some (intOfParts sgn n, rest) := by
  have hstop := takeDigitRun_nil_of_delim rest hr
  obtain ⟨d, t, hdt, hdig, hd0⟩ := natDigits_head n
  have htake : takeDigitRun (natDigits n ++ rest) = (d :: t, rest) := by
    have h2 := takeDigitRun_append (natDigits n) (natDigits_all_digit _) rest hstop
    rw [hdt] at h2 ⊢
    exact h2
  have hlead : ¬(d = '0' ∧ t ≠ []) := by
    rintro ⟨hd, ht⟩
    exact ht (hd0 hd)
  have hdv : digitRunVal (d :: t) = n := by
    rw [← hdt, digitRunVal_natDigits]
  rw [parseUIntTok.eq_def, htake]
  dsimp only
  rw [if_neg hlead]
  rcases rest with _ | ⟨c, rr⟩
  · rw [hdv]
  · have hc : isDigitChar c = false ∧ c ≠ '.' ∧ c ≠ 'e' ∧ c ≠ 'E' := hr
    dsimp only
    rw [if_neg (by rintro (h | h | h); exacts [hc.2.1 h, hc.2.2.1 h, hc.2.2.2 h]), hdv]

theorem parseIntTok_intChars (i : Int) (rest : List Char) (hr : numDelim rest) :
    parseIntTok (intChars i ++ rest) = some (i, rest) := by
  by_cases hneg : i < 0
  · have harg : intChars i ++ rest = '-' :: (natDigits i.natAbs ++ rest) := by
      rw [intChars, if_pos hneg, List.cons_append]
    rw [harg, parseIntTok]
    rw [if_pos (by rw [List.head?])]
    rw [List.tail_cons, parseUIntTok_natDigits _ _ _ hr]
    rw [show intOfParts true i.natAbs = i by rw [intOfParts, if_pos rfl]; omega]
  · obtain ⟨d, t, hdt, hdig, _⟩ := natDigits_head i.natAbs
    have harg : intChars i ++ rest = d :: (t ++ rest) := by
      rw [intChars, if_neg hneg, hdt, List.cons_append]
    rw [harg, parseIntTok]
    rw [if_neg (by
      rw [List.head?]
      simp only [Option.some.injEq]
      exact (digit_head_facts d hdig).2.2.2.1)]
    rw [← harg, show intChars i = natDigits i.natAbs from by rw [intChars, if_neg hneg],
      parseUIntTok_natDigits _ _ _ hr]
    rw [show intOfParts false i.natAbs = i by rw [intOfParts, if_neg (by simp)]; omega]

/-! ### Whitespace and printer-shape lemmas -/

theorem skipJsonWs_not_ws (c : Char) (t : List Char) (h : isJsonWs c = false) :
    skipJsonWs (c :: t) = c :: t := by
  rw [skipJsonWs, if_neg (by rw [h]; simp)]

theorem skipJsonWs_ws_run (w : List Char) (h : ∀ c ∈ w, isJsonWs c = true) :
    ∀ t : List Char, skipJsonWs (w ++ t) = skipJsonWs t := by
  induction w with
  | nil => intro t; rw [List.nil_append]
  | cons c cs ih =>
    intro t
    rw [List.cons_append, skipJsonWs, if_pos (by rw [h c (by simp)])]
    exact ih (fun x hx => h x (by simp [hx])) t

theorem jindent_ws (k : Nat) : ∀ c ∈ jindent k, isJsonWs c = true := by
  intro c hc
  rw [jindent] at hc
  rw [List.eq_of_mem_replicate hc]
  decide

theorem jindent_spaces (k : Nat) : ∀ c ∈ jindent k, c = ' ' :=
  fun _ hc => List.eq_of_mem_replicate (by rwa [jindent] at hc)

theorem skipJsonWs_pyDump (k : Nat) (j : Jval) (x : List Char) :
    skipJsonWs (pyDump k j ++ x) = pyDump k j ++ x := by
  cases j with
  | null => exact skipJsonWs_not_ws _ _ (by decide)
  | bool b => cases b <;> exact skipJsonWs_not_ws _ _ (by decide)
  | str s => exact skipJsonWs_not_ws _ _ (by decide)
  | arr items =>
    cases items with
    | nil => exact skipJsonWs_not_ws _ _ (by decide)
    | cons y ys => exact skipJsonWs_not_ws _ _ (by decide)
  | obj members =>
    cases members with
    | nil => exact skipJsonWs_not_ws _ _ (by decide)
    | cons m ms => exact skipJsonWs_not_ws _ _ (by decide)
  | int n =>
    by_cases hn : n < 0
    · rw [pyDump, intChars, if_pos hn]
      exact skipJsonWs_not_ws _ _ (by decide)
    · obtain ⟨d, t, hdt, hdig, _⟩ := natDigits_head n.natAbs
      rw [pyDump, intChars, if_neg hn, hdt, List.cons_append]
      exact skipJsonWs_not_ws _ _ (digit_head_facts d hdig).2.2.2.2.2.2.2

theorem jfuelV_pos (j : Jval) : 1 ≤ jfuelV j := by
  cases j <;> rw [jfuelV] <;> omega

theorem jfuel_le_dump_length : ∀ N : Nat,
    (∀ j k, jfuelV j ≤ N → jfuelV j ≤ (pyDump k j).length) ∧
    (∀ ms k, jfuelM ms ≤ N → jfuelM ms ≤ (pyDumpMembers k ms).length + 1) ∧
    (∀ xs k, jfuelI xs ≤ N → jfuelI xs ≤ (pyDumpItems k xs).length + 1) := by
  intro N
  induction N with
  | zero =>
    refine ⟨fun j k h => absurd h (by have := jfuelV_pos j; omega), ?_, ?_⟩
    · intro ms k h
      omega
    · intro xs k h
      omega
  | succ N ih =>
    obtain ⟨ihV, ihM, ihI⟩ := ih
    refine ⟨?_, ?_, ?_⟩
    · intro j k h
      cases j with
      | null => rw [jfuelV]; rw [pyDump]; simp
      | bool b => cases b <;> (rw [jfuelV]; rw [pyDump]; simp)
      | int n =>
        rw [jfuelV]
        have := natDigits_ne_nil n.natAbs
        rw [pyDump, intChars]
        by_cases hn : n < 0
        · rw [if_pos hn]; simp
        · rw [if_neg hn]
          have : 0 < (natDigits n.natAbs).length := List.length_pos.mpr this
          omega
      | str s => rw [jfuelV]; rw [pyDump, quoteStr]; simp
      | arr items =>
        cases items with
        | nil => rw [jfuelV, jfuelI]; rw [pyDump]; simp
        | cons y ys =>
          rw [jfuelV] at h ⊢
          have hy : jfuelI (y :: ys) ≤ N := by omega
          have := ihI (y :: ys) (k + 1) hy
          rw [pyDump]
          simp only [List.length_cons, List.length_append]
          omega
      | obj members =>
        cases members with
        | nil => rw [jfuelV, jfuelM]; rw [pyDump]; simp
        | cons m ms =>
          rw [jfuelV] at h ⊢
          have hm : jfuelM (m :: ms) ≤ N := by omega
          have := ihM (m :: ms) (k + 1) hm
          rw [pyDump]
          simp only [List.length_cons, List.length_append]
          omega
    · intro ms k h
      cases ms with
      | nil => rw [jfuelM]; omega
      | cons m rest =>
        obtain ⟨key, v⟩ := m
        cases rest with
        | nil =>
          simp only [jfuelM] at h ⊢
          have hv : jfuelV v ≤ N := by omega
          have := ihV v k hv
          rw [pyDumpMembers, quoteStr]
          simp only [List.length_append, List.length_cons]
          omega
        | cons m2 ms2 =>
          rw [jfuelM] at h ⊢
          have hv : jfuelV v ≤ N := by omega
          have hrest : jfuelM (m2 :: ms2) ≤ N := by omega
          have h1 := ihV v k hv
          have h2 := ihM (m2 :: ms2) k hrest
          rw [pyDumpMembers, quoteStr]
          simp only [List.length_append, List.length_cons]
          omega
    · intro xs k h
      cases xs with
      | nil => rw [jfuelI]; omega
      | cons x rest =>
        cases rest with
        | nil =>
          simp only [jfuelI] at h ⊢
          have hx : jfuelV x ≤ N := by omega
          have := ihV x k hx
          rw [pyDumpItems]
          omega
        | cons x2 xs2 =>
          rw [jfuelI] at h ⊢
          have hx : jfuelV x ≤ N := by omega
          have hrest : jfuelI (x2 :: xs2) ≤ N := by omega
          have h1 := ihV x k hx
          have h2 := ihI (x2 :: xs2) k hrest
          rw [pyDumpItems]
          simp only [List.length_append, List.length_cons]
          omega

/-! ### The printer–parser round trip -/

theorem escChar_length_pos (c : Char) : 1 ≤ (escChar c).length := by
  rw [escChar]
  split_ifs <;> simp [uEscape]

theorem escStr_length (s : List Char) : s.length ≤ (escStr s).length := by
  induction s with
  | nil => simp [escStr]
  | cons c cs ih =>
    rw [escStr, List.flatMap_cons, List.length_append]
    have := escChar_length_pos c
    rw [show (cs.flatMap escChar : List Char) = escStr cs from rfl]
    simp only [List.length_cons]
    omega

theorem pyDumpMembers_head (k : Nat) (key : List Char) (v : Jval)
    (ms : List (List Char × Jval)) :
    ∃ t, pyDumpMembers k ((key, v) :: ms) = '"' :: t := by
  cases ms with
  | nil =>
    refine ⟨(escStr key ++ ['"']) ++ (':' :: ' ' :: pyDump k v), ?_⟩
    rw [pyDumpMembers, quoteStr, List.cons_append]
  | cons m2 ms2 =>
    refine ⟨(escStr key ++ ['"']) ++
      (':' :: ' ' :: pyDump k v ++
        ',' :: '\n' :: (jindent k ++ pyDumpMembers k (m2 :: ms2))), ?_⟩
    rw [pyDumpMembers, quoteStr]
    simp only [List.cons_append, List.append_assoc]

theorem digit_not_bracket (c : Char) (h : isDigitChar c = true) : c ≠ ']' ∧ c ≠ '}' := by
  constructor
  · intro hc; rw [hc] at h; exact absurd h (by decide)
  · intro hc; rw [hc] at h; exact absurd h (by decide)

theorem pyDump_head (k : Nat) (j : Jval) :
    ∃ c t, pyDump k j = c :: t ∧ isJsonWs c = false ∧ c ≠ ']' ∧ c ≠ '}' := by
  cases j with
  | null => exact ⟨'n', _, by rw [pyDump], by decide, by decide, by decide⟩
  | bool b =>
    cases b with
    | true => exact ⟨'t', _, by rw [pyDump], by decide, by decide, by decide⟩
    | false => exact ⟨'f', _, by rw [pyDump], by decide, by decide, by decide⟩
  | str s => exact ⟨'"', _, by rw [pyDump, quoteStr], by decide, by decide, by decide⟩
  | int n =>
    by_cases hn : n < 0
    · exact ⟨'-', _, by rw [pyDump, intChars, if_pos hn], by decide, by decide, by decide⟩
    · obtain ⟨d, t, hdt, hdig, _⟩ := natDigits_head n.natAbs
      have h1 := (digit_head_facts d hdig).2.2.2.2.2.2.2
      have h2 := digit_not_bracket d hdig
      exact ⟨d, t, by rw [pyDump, intChars, if_neg hn, hdt], h1, h2.1, h2.2⟩
  | arr items =>
    cases items with
    | nil => exact ⟨'[', _, by rw [pyDump], by decide, by decide, by decide⟩
    | cons x xs =>
      refine ⟨'[', '\n' :: ((jindent (k + 1) ++ pyDumpItems (k + 1) (x :: xs)) ++
        '\n' :: (jindent k ++ [']'])), ?_, by decide, by decide, by decide⟩
      rw [pyDump]
      simp only [List.cons_append]
  | obj members =>
    cases members with
    | nil => exact ⟨'{', _, by rw [pyDump], by decide, by decide, by decide⟩
    | cons m ms =>
      refine ⟨'{', '\n' :: ((jindent (k + 1) ++ pyDumpMembers (k + 1) (m :: ms)) ++
        '\n' :: (jindent k ++ ['}'])), ?_, by decide, by decide, by decide⟩
      rw [pyDump]
      simp only [List.cons_append]

theorem pyDumpItems_head (k : Nat) (x : Jval) (xs : List Jval) :
    ∃ c t, pyDumpItems k (x :: xs) = c :: t ∧ isJsonWs c = false ∧ c ≠ ']' ∧ c ≠ '}' := by
  obtain ⟨c, t, hct, h1, h2, h3⟩ := pyDump_head k x
  cases xs with
  | nil => exact ⟨c, t, by rw [pyDumpItems, hct], h1, h2, h3⟩
  | cons y ys => exact ⟨c, _, by rw [pyDumpItems, hct, List.cons_append], h1, h2, h3⟩

theorem skipJsonWs_nl_sp (sp : List Char) (h : ∀ c ∈ sp, c = ' ') (c0 : Char)
    (x : List Char) (hc : isJsonWs c0 = false) :
    skipJsonWs ('\n' :: (sp ++ c0 :: x)) = c0 :: x := by
  rw [show '\n' :: (sp ++ c0 :: x) = ('\n' :: sp) ++ c0 :: x by rw [List.cons_append]]
  rw [skipJsonWs_ws_run ('\n' :: sp) ?_, skipJsonWs_not_ws _ _ hc]
  intro c hcc
  rcases List.mem_cons.mp hcc with h1 | h1
  · rw [h1]; decide
  · rw [h c h1]; decide

theorem take_ne_lit (c : Char) (l : List Char) (n : Nat) (w : Char) (ws : List Char)
    (h : c ≠ w) : (c :: l).take (n + 1) ≠ w :: ws := by
  simp [List.take_cons, h]

theorem parseVal_quote (f : Nat) (r : List Char) :
    parseVal (f + 1) ('"' :: r)
      = (parseStrBody (r.length + 1) r).map (fun p => (Jval.str p.1, p.2)) := rfl

theorem parseVal_obrace (f : Nat) (r : List Char) :
    parseVal (f + 1) ('{' :: r)
      = if (skipJsonWs r).head? = some '}' then some (.obj [], (skipJsonWs r).tail)
        else (parseMembersF f (skipJsonWs r)).map (fun p => (.obj p.1, p.2)) := rfl

theorem parseVal_obracket (f : Nat) (r : List Char) :
    parseVal (f + 1) ('[' :: r)
      = if (skipJsonWs r).head? = some ']' then some (.arr [], (skipJsonWs r).tail)
        else (parseItemsF f (skipJsonWs r)).map (fun p => (.arr p.1, p.2)) := rfl

theorem parseVal_num_entry (f : Nat) (c : Char) (r : List Char)
    (h1 : c ≠ '{') (h2 : c ≠ '[') (h3 : c ≠ '"')
    (h4 : (c :: r).take 4 ≠ ['n', 'u', 'l', 'l'])
    (h5 : (c :: r).take 4 ≠ ['t', 'r', 'u', 'e'])
    (h6 : (c :: r).take 5 ≠ ['f', 'a', 'l', 's', 'e'])
    (h7 : c = '-' ∨ isDigitChar c = true) :
    parseVal (f + 1) (c :: r) = (parseIntTok (c :: r)).map (fun p => (Jval.int p.1, p.2)) := by
  simp only [parseVal]
  rw [if_neg h1, if_neg h2, if_neg h3, if_neg h4, if_neg h5, if_neg h6, if_pos h7]

theorem parse_pyDump (f : Nat) :
    (∀ j k rest, jfuelV j ≤ f → numDelim rest →
      parseVal f (pyDump k j ++ rest) = some (j, rest)) ∧
    (∀ ms k sp rest, ms ≠ [] → jfuelM ms ≤ f → (∀ c ∈ sp, c = ' ') →
      parseMembersF f (pyDumpMembers k ms ++ '\n' :: (sp ++ '}' :: rest)) = some (ms, rest)) ∧
    (∀ xs k sp rest, xs ≠ [] → jfuelI xs ≤ f → (∀ c ∈ sp, c = ' ') →
      parseItemsF f (pyDumpItems k xs ++ '\n' :: (sp ++ ']' :: rest)) = some (xs, rest)) := by
  induction f with
  | zero =>
    refine ⟨?_, ?_, ?_⟩
    · intro j k rest hf _
      exact absurd hf (by have := jfuelV_pos j; omega)
    · intro ms k sp rest hne hf _
      rcases ms with _ | ⟨⟨key, v⟩, ms2⟩
      · exact absurd rfl hne
      · rw [jfuelM] at hf
        exact absurd hf (by omega)
    · intro xs k sp rest hne hf _
      rcases xs with _ | ⟨x, xs2⟩
      · exact absurd rfl hne
      · rw [jfuelI] at hf
        exact absurd hf (by omega)
  | succ f ih =>
    obtain ⟨ihV, ihM, ihI⟩ := ih
    have hnlws : ∀ kk : Nat, ∀ c ∈ ('\n' :: jindent kk : List Char), isJsonWs c = true := by
      intro kk c hc
      rcases List.mem_cons.mp hc with h1 | h1
      · rw [h1]; decide
      · exact jindent_ws kk c h1
    refine ⟨?_, ?_, ?_⟩
    · -- values
      intro j k rest hf hnd
      cases j with
      | null => exact rfl
      | bool b => cases b <;> exact rfl
      | str s =>
        have harg : pyDump k (.str s) ++ rest = '"' :: (escStr s ++ '"' :: rest) := by
          rw [pyDump, quoteStr]
          simp
        rw [harg, parseVal_quote]
        rw [parseStrBody_escStr s _ rest (by
          have h1 := escStr_length s
          simp only [List.length_append, List.length_cons]
          omega)]
        exact rfl
      | int n =>
        have hint := parseIntTok_intChars n rest hnd
        by_cases hn : n < 0
        · have harg : pyDump k (.int n) ++ rest
              = '-' :: (natDigits n.natAbs ++ rest) := by
            rw [pyDump, intChars, if_pos hn, List.cons_append]
          rw [harg]
          rw [parseVal_num_entry f '-' _ (by decide) (by decide) (by decide)
            (take_ne_lit _ _ _ _ _ (by decide)) (take_ne_lit _ _ _ _ _ (by decide))
            (take_ne_lit _ _ _ _ _ (by decide)) (Or.inl rfl)]
          rw [← List.cons_append, show ('-' :: natDigits n.natAbs : List Char)
              = intChars n by rw [intChars, if_pos hn], hint]
          exact rfl
        · obtain ⟨d, t, hdt, hdig, _⟩ := natDigits_head n.natAbs
          obtain ⟨w1, w2, w3, _, _, _, _, _⟩ := digit_head_facts d hdig
          have harg : pyDump k (.int n) ++ rest = d :: (t ++ rest) := by
            rw [pyDump, intChars, if_neg hn, hdt, List.cons_append]
          rw [harg]
          rw [parseVal_num_entry f d _ w1 w2 w3
            (take_ne_lit _ _ _ _ _ (by
              intro hd; rw [hd] at hdig; exact absurd hdig (by decide)))
            (take_ne_lit _ _ _ _ _ (by
              intro hd; rw [hd] at hdig; exact absurd hdig (by decide)))
            (take_ne_lit _ _ _ _ _ (by
              intro hd; rw [hd] at hdig; exact absurd hdig (by decide)))
            (Or.inr hdig)]
          rw [show (d :: (t ++ rest) : List Char) = intChars n ++ rest by
            rw [intChars, if_neg hn, hdt, List.cons_append], hint]
          exact rfl
      | arr items =>
        cases items with
        | nil => exact rfl
        | cons x xs =>
          rw [jfuelV] at hf
          have harg : pyDump k (.arr (x :: xs)) ++ rest
              = '[' :: (('\n' :: jindent (k + 1)) ++
                (pyDumpItems (k + 1) (x :: xs) ++ '\n' :: (jindent k ++ ']' :: rest))) := by
            rw [pyDump]
            simp
          rw [harg, parseVal_obracket]
          rw [skipJsonWs_ws_run ('\n' :: jindent (k + 1)) (hnlws (k + 1))]
          obtain ⟨c0, t0, hct, hws0, hbr0, _⟩ := pyDumpItems_head (k + 1) x xs
          rw [hct, List.cons_append, skipJsonWs_not_ws _ _ hws0, List.head?_cons]
          have hne0 : ¬((some c0 : Option Char) = some ']') := by simp [hbr0]
          rw [if_neg hne0]
          rw [← List.cons_append, ← hct]
          rw [ihI (x :: xs) (k + 1) (jindent k) rest (by simp) (by omega) (jindent_spaces k)]
          exact rfl
      | obj members =>
        cases members with
        | nil => exact rfl
        | cons m ms =>
          obtain ⟨key, v⟩ := m
          rw [jfuelV] at hf
          have harg : pyDump k (.obj ((key, v) :: ms)) ++ rest
              = '{' :: (('\n' :: jindent (k + 1)) ++
                (pyDumpMembers (k + 1) ((key, v) :: ms) ++
                  '\n' :: (jindent k ++ '}' :: rest))) := by
            rw [pyDump]
            simp
          rw [harg, parseVal_obrace]
          rw [skipJsonWs_ws_run ('\n' :: jindent (k + 1)) (hnlws (k + 1))]
          obtain ⟨t0, hct⟩ := pyDumpMembers_head (k + 1) key v ms
          rw [hct, List.cons_append, skipJsonWs_not_ws _ _ (by decide), List.head?_cons]
          rw [if_neg (show ¬((some ('"' : Char) : Option Char) = some '}') from by decide)]
          rw [← List.cons_append, ← hct]
          rw [ihM ((key, v) :: ms) (k + 1) (jindent k) rest (by simp) (by omega)
            (jindent_spaces k)]
          exact rfl
    · -- members
      intro ms k sp rest hne hfm hsp
      rcases ms with _ | ⟨⟨key, v⟩, ms2⟩
      · exact absurd rfl hne
      rw [jfuelM] at hfm
      cases ms2 with
      | nil =>
        have harg : pyDumpMembers k [(key, v)] ++ '\n' :: (sp ++ '}' :: rest)
            = '"' :: (escStr key ++ '"' ::
              (':' :: (' ' :: (pyDump k v ++ '\n' :: (sp ++ '}' :: rest))))) := by
          rw [pyDumpMembers, quoteStr]
          simp
        rw [harg]
        simp only [parseMembersF, List.head?_cons, List.tail_cons, if_true]
        rw [parseStrBody_escStr key _ _ (by
          have h1 := escStr_length key
          simp only [List.length_append, List.length_cons]
          omega)]
        dsimp only
        rw [skipJsonWs_not_ws _ _ (show isJsonWs ':' = false from by decide)]
        simp only [List.head?_cons, List.tail_cons, if_true]
        rw [show skipJsonWs (' ' :: (pyDump k v ++ '\n' :: (sp ++ '}' :: rest)))
            = pyDump k v ++ '\n' :: (sp ++ '}' :: rest) from by
          rw [skipJsonWs, if_pos (show isJsonWs ' ' = true from by decide)]
          exact skipJsonWs_pyDump k v _]
        rw [ihV v k ('\n' :: (sp ++ '}' :: rest)) (by omega)
          ⟨by decide, by decide, by decide, by decide⟩]
        dsimp only
        rw [skipJsonWs_nl_sp sp hsp '}' rest (by decide)]
        simp only [List.head?_cons, List.tail_cons, if_true, if_false]
        rw [if_neg (show ¬((some ('}' : Char) : Option Char) = some ',') from by decide)]
      | cons m2 ms3 =>
        have harg : pyDumpMembers k ((key, v) :: m2 :: ms3) ++ '\n' :: (sp ++ '}' :: rest)
            = '"' :: (escStr key ++ '"' ::
              (':' :: (' ' :: (pyDump k v ++ ',' :: ('\n' :: (jindent k ++
                (pyDumpMembers k (m2 :: ms3) ++ '\n' :: (sp ++ '}' :: rest)))))))) := by
          rw [pyDumpMembers, quoteStr]
          simp
        rw [harg]
        simp only [parseMembersF, List.head?_cons, List.tail_cons, if_true]
        rw [parseStrBody_escStr key _ _ (by
          have h1 := escStr_length key
          simp only [List.length_append, List.length_cons]
          omega)]
        dsimp only
        rw [skipJsonWs_not_ws _ _ (show isJsonWs ':' = false from by decide)]
        simp only [List.head?_cons, List.tail_cons, if_true]
        rw [show skipJsonWs (' ' :: (pyDump k v ++ ',' :: ('\n' :: (jindent k ++
              (pyDumpMembers k (m2 :: ms3) ++ '\n' :: (sp ++ '}' :: rest))))))
            = pyDump k v ++ ',' :: ('\n' :: (jindent k ++
              (pyDumpMembers k (m2 :: ms3) ++ '\n' :: (sp ++ '}' :: rest)))) from by
          rw [skipJsonWs, if_pos (show isJsonWs ' ' = true from by decide)]
          exact skipJsonWs_pyDump k v _]
        rw [ihV v k (',' :: ('\n' :: (jindent k ++ (pyDumpMembers k (m2 :: ms3) ++
            '\n' :: (sp ++ '}' :: rest))))) (by omega)
          ⟨by decide, by decide, by decide, by decide⟩]
        dsimp only
        rw [skipJsonWs_not_ws _ _ (show isJsonWs ',' = false from by decide)]
        simp only [List.head?_cons, List.tail_cons, if_true]
        obtain ⟨key2, v2⟩ := m2
        obtain ⟨t0, hct⟩ := pyDumpMembers_head k key2 v2 ms3
        rw [show skipJsonWs ('\n' :: (jindent k ++ (pyDumpMembers k ((key2, v2) :: ms3) ++
              '\n' :: (sp ++ '}' :: rest))))
            = pyDumpMembers k ((key2, v2) :: ms3) ++ '\n' :: (sp ++ '}' :: rest) from by
          rw [show ('\n' :: (jindent k ++ (pyDumpMembers k ((key2, v2) :: ms3) ++
                '\n' :: (sp ++ '}' :: rest))) : List Char)
              = ('\n' :: jindent k) ++ (pyDumpMembers k ((key2, v2) :: ms3) ++
                '\n' :: (sp ++ '}' :: rest)) by rw [List.cons_append]]
          rw [skipJsonWs_ws_run ('\n' :: jindent k) (hnlws k)]
          rw [hct, List.cons_append, skipJsonWs_not_ws _ _ (by decide), ← List.cons_append,
            ← hct]]
        rw [ihM ((key2, v2) :: ms3) k sp rest (by simp) (by omega) hsp]
        exact rfl
    · -- items
      intro xs k sp rest hne hfi hsp
      rcases xs with _ | ⟨x, xs2⟩
      · exact absurd rfl hne
      rw [jfuelI] at hfi
      cases xs2 with
      | nil =>
        rw [show pyDumpItems k [x] = pyDump k x from by rw [pyDumpItems]]
        simp only [parseItemsF]
        rw [ihV x k ('\n' :: (sp ++ ']' :: rest)) (by omega)
          ⟨by decide, by decide, by decide, by decide⟩]
        dsimp only
        rw [skipJsonWs_nl_sp sp hsp ']' rest (by decide)]
        simp only [List.head?_cons, List.tail_cons, if_true, if_false]
        rw [if_neg (show ¬((some (']' : Char) : Option Char) = some ',') from by decide)]
      | cons y ys =>
        have harg : pyDumpItems k (x :: y :: ys) ++ '\n' :: (sp ++ ']' :: rest)
            = pyDump k x ++ ',' :: ('\n' :: (jindent k ++
              (pyDumpItems k (y :: ys) ++ '\n' :: (sp ++ ']' :: rest)))) := by
          rw [pyDumpItems]
          simp
        rw [harg]
        simp only [parseItemsF]
        rw [ihV x k (',' :: ('\n' :: (jindent k ++ (pyDumpItems k (y :: ys) ++
            '\n' :: (sp ++ ']' :: rest))))) (by omega)
          ⟨by decide, by decide, by decide, by decide⟩]
        dsimp only
        rw [skipJsonWs_not_ws _ _ (show isJsonWs ',' = false from by decide)]
        simp only [List.head?_cons, List.tail_cons, if_true]
        obtain ⟨c0, t0, hct, hws0, _, _⟩ := pyDumpItems_head k y ys
        rw [show skipJsonWs ('\n' :: (jindent k ++ (pyDumpItems k (y :: ys) ++
              '\n' :: (sp ++ ']' :: rest))))
            = pyDumpItems k (y :: ys) ++ '\n' :: (sp ++ ']' :: rest) from by
          rw [show ('\n' :: (jindent k ++ (pyDumpItems k (y :: ys) ++
                '\n' :: (sp ++ ']' :: rest))) : List Char)
              = ('\n' :: jindent k) ++ (pyDumpItems k (y :: ys) ++
                '\n' :: (sp ++ ']' :: rest)) by rw [List.cons_append]]
          rw [skipJsonWs_ws_run ('\n' :: jindent k) (hnlws k)]
          rw [hct, List.cons_append, skipJsonWs_not_ws _ _ hws0, ← List.cons_append, ← hct]]
        rw [ihI (y :: ys) k sp rest (by simp) (by omega) hsp]
        exact rfl

/-! ### Soundness of the brace repair on pretty-printed output -/

theorem pairR_of_snd_ne (a b : Char) (h : b ≠ '{') : ¬(a = '\n' ∧ b = '{') :=
  fun hp => h hp.2

theorem pairR_of_fst_ne (a b : Char) (h : a ≠ '\n') : ¬(a = '\n' ∧ b = '{') :=
  fun hp => h hp.1

theorem nlBraceFree_of_no_nl : ∀ l : List Char, '\n' ∉ l → nlBraceFree l := by
  intro l
  induction l with
  | nil => intro _; exact List.chain'_nil
  | cons a t ih =>
    intro h
    cases t with
    | nil => exact List.chain'_singleton a
    | cons b t2 =>
      rw [nlBraceFree, List.chain'_cons]
      refine ⟨pairR_of_fst_ne a b (by intro ha; exact h (by rw [ha]; simp)), ?_⟩
      exact ih (fun hm => h (List.mem_cons_of_mem a hm))

theorem hexDigitChar_ne_nl (d : Nat) : hexDigitChar d ≠ '\n' := by
  by_cases h : d < 16
  · interval_cases d <;> decide
  · rw [hexDigitChar, List.getD_eq_default]
    · decide
    · simp
      omega

theorem nl_not_mem_uEscape (n : Nat) : '\n' ∉ uEscape n := by
  rw [uEscape]
  intro hm
  simp only [List.mem_cons, List.not_mem_nil, or_false] at hm
  rcases hm with h | h | h | h | h | h
  · exact absurd h (by decide)
  · exact absurd h (by decide)
  · exact hexDigitChar_ne_nl _ h.symm
  · exact hexDigitChar_ne_nl _ h.symm
  · exact hexDigitChar_ne_nl _ h.symm
  · exact hexDigitChar_ne_nl _ h.symm

theorem nl_not_mem_escChar (c : Char) : '\n' ∉ escChar c := by
  rw [escChar]
  split_ifs with h1 h2 h3 h4 h5 h6 h7 h8 h9
  · decide
  · decide
  · decide
  · decide
  · decide
  · decide
  · decide
  · intro hm
    rw [List.mem_singleton] at hm
    rw [← hm] at h8
    exact absurd h8 (by decide)
  · exact nl_not_mem_uEscape _
  · intro hm
    rcases List.mem_append.mp hm with h | h
    · exact nl_not_mem_uEscape _ h
    · exact nl_not_mem_uEscape _ h

theorem nl_not_mem_escStr (s : List Char) : '\n' ∉ escStr s := by
  induction s with
  | nil => simp [escStr]
  | cons c cs ih =>
    rw [escStr, List.flatMap_cons]
    intro hm
    rcases List.mem_append.mp hm with h | h
    · exact nl_not_mem_escChar c h
    · exact ih h

theorem nl_not_mem_jindent (k : Nat) : '\n' ∉ jindent k := by
  rw [jindent]
  intro hm
  have := List.eq_of_mem_replicate hm
  exact absurd this (by decide)

theorem nlBraceFree_quoteStr (s : List Char) : nlBraceFree (quoteStr s) := by
  apply nlBraceFree_of_no_nl
  rw [quoteStr]
  intro hm
  rcases List.mem_cons.mp hm with h | h
  · exact absurd h (by decide)
  · rcases List.mem_append.mp h with h2 | h2
    · exact nl_not_mem_escStr s h2
    · rw [List.mem_singleton] at h2
      exact absurd h2 (by decide)

theorem nlBraceFree_append_snd (a b : List Char) (ha : nlBraceFree a)
    (hb : nlBraceFree b) (h : ∀ y ∈ b.head?, y ≠ '{') : nlBraceFree (a ++ b) :=
  List.chain'_append.mpr ⟨ha, hb, fun x _ y hy => pairR_of_snd_ne x y (h y hy)⟩

theorem nlBraceFree_append_fst (a b : List Char) (ha : nlBraceFree a)
    (hb : nlBraceFree b) (h : ∀ x ∈ a.getLast?, x ≠ '\n') : nlBraceFree (a ++ b) :=
  List.chain'_append.mpr ⟨ha, hb, fun x hx y _ => pairR_of_fst_ne x y (h x hx)⟩

theorem nlBraceFree_cons_snd (a : Char) (l : List Char) (hl : nlBraceFree l)
    (h : ∀ y ∈ l.head?, y ≠ '{') : nlBraceFree (a :: l) :=
  List.chain'_cons'.mpr ⟨fun y hy => pairR_of_snd_ne a y (h y hy), hl⟩

theorem nlBraceFree_cons_fst (a : Char) (l : List Char) (hl : nlBraceFree l)
    (h : a ≠ '\n') : nlBraceFree (a :: l) :=
  List.chain'_cons'.mpr ⟨fun y _ => pairR_of_fst_ne a y h, hl⟩

theorem nl_not_mem_intChars (n : Int) : '\n' ∉ intChars n := by
  have hd : '\n' ∉ natDigits n.natAbs := by
    intro hm
    have := natDigits_all_digit n.natAbs '\n' hm
    exact absurd this (by decide)
  rw [intChars]
  split_ifs with h
  · intro hm
    rcases List.mem_cons.mp hm with h2 | h2
    · exact absurd h2 (by decide)
    · exact hd h2
  · exact hd

theorem jindent_getLast_ne_nl (k : Nat) : ∀ x ∈ (jindent k).getLast?, x ≠ '\n' := by
  intro x hx
  have hm : x ∈ jindent k := List.mem_of_getLast?_eq_some hx
  rw [jindent_spaces k x hm]
  decide

theorem nlBraceFree_jindent (k : Nat) : nlBraceFree (jindent k) :=
  nlBraceFree_of_no_nl _ (nl_not_mem_jindent k)

theorem jindent_succ_cons (k : Nat) :
    jindent (k + 1) = ' ' :: List.replicate (4 * k + 3) ' ' := by
  rw [jindent, show 4 * (k + 1) = (4 * k + 3) + 1 from by omega, List.replicate_succ]

theorem jindent_succ_head (k : Nat) (M : List Char) :
    (jindent (k + 1) ++ M).head? = some ' ' := by
  rw [jindent_succ_cons, List.cons_append, List.head?_cons]

theorem jindent_pos_head (k : Nat) (hk : 1 ≤ k) (M : List Char) :
    (jindent k ++ M).head? = some ' ' := by
  obtain ⟨k2, rfl⟩ : ∃ k2, k = k2 + 1 := ⟨k - 1, by omega⟩
  exact jindent_succ_head k2 M

theorem jindent_close_head (k : Nat) (c : Char) (hc : c ≠ '{') :
    ∀ y ∈ (jindent k ++ [c]).head?, y ≠ '{' := by
  cases k with
  | zero =>
    intro y hy
    simp only [jindent, Nat.mul_zero, List.replicate_zero, List.nil_append,
      List.head?_cons, Option.mem_def, Option.some.injEq] at hy
    rw [← hy]
    exact hc
  | succ k2 =>
    intro y hy
    rw [jindent_succ_head] at hy
    simp only [Option.mem_def, Option.some.injEq] at hy
    rw [← hy]
    decide

/-- The full shape invariant of the pretty printer: nowhere in the output of
`json.dumps(v, indent=4)` is a newline immediately followed by `{`, because
every newline is followed by indentation spaces or a closing bracket, and
serialized strings contain no raw newline.  The fuel `N` drives the mutual
induction. -/
theorem pyDump_nlBraceFree : ∀ N : Nat,
    (∀ j k, jfuelV j ≤ N → nlBraceFree (pyDump k j)) ∧
    (∀ ms k, jfuelM ms ≤ N → 1 ≤ k → nlBraceFree (pyDumpMembers k ms)) ∧
    (∀ xs k, jfuelI xs ≤ N → 1 ≤ k → nlBraceFree (pyDumpItems k xs)) := by
  intro N
  induction N with
  | zero =>
    refine ⟨fun j k h => absurd h (by have := jfuelV_pos j; omega), ?_, ?_⟩
    · intro ms k h _
      cases ms with
      | nil => exact List.chain'_nil
      | cons m rest =>
        obtain ⟨key, v⟩ := m
        rw [jfuelM] at h
        exact absurd h (by have := jfuelV_pos v; omega)
    · intro xs k h _
      cases xs with
      | nil => exact List.chain'_nil
      | cons x rest =>
        rw [jfuelI] at h
        exact absurd h (by have := jfuelV_pos x; omega)
  | succ N ih =>
    obtain ⟨ihV, ihM, ihI⟩ := ih
    refine ⟨?_, ?_, ?_⟩
    · intro j k h
      cases j with
      | null => rw [pyDump]; exact nlBraceFree_of_no_nl _ (by decide)
      | bool b => cases b <;> (rw [pyDump]; exact nlBraceFree_of_no_nl _ (by decide))
      | int n => rw [pyDump]; exact nlBraceFree_of_no_nl _ (nl_not_mem_intChars n)
      | str s => rw [pyDump]; exact nlBraceFree_quoteStr s
      | arr items =>
        cases items with
        | nil => rw [pyDump]; exact nlBraceFree_of_no_nl _ (by decide)
        | cons x xs =>
          rw [jfuelV] at h
          rw [pyDump]
          have hI : nlBraceFree (pyDumpItems (k + 1) (x :: xs)) :=
            ihI (x :: xs) (k + 1) (by omega) (by omega)
          refine nlBraceFree_append_snd _ _ ?_ ?_ ?_
          · refine nlBraceFree_cons_snd _ _ ?_ ?_
            · refine nlBraceFree_cons_snd _ _ ?_ ?_
              · exact nlBraceFree_append_fst _ _ (nlBraceFree_jindent _) hI
                  (jindent_getLast_ne_nl _)
              · intro y hy
                rw [jindent_succ_head] at hy
                simp only [Option.mem_def, Option.some.injEq] at hy
                rw [← hy]
                decide
            · intro y hy
              simp only [List.head?_cons, Option.mem_def, Option.some.injEq] at hy
              rw [← hy]
              decide
          · refine nlBraceFree_cons_snd _ _ ?_ (jindent_close_head k ']' (by decide))
            exact nlBraceFree_append_fst _ _ (nlBraceFree_jindent _)
              (List.chain'_singleton _) (jindent_getLast_ne_nl _)
          · intro y hy
            simp only [List.head?_cons, Option.mem_def, Option.some.injEq] at hy
            rw [← hy]
            decide
      | obj members =>
        cases members with
        | nil => rw [pyDump]; exact nlBraceFree_of_no_nl _ (by decide)
        | cons m ms =>
          rw [jfuelV] at h
          rw [pyDump]
          have hM : nlBraceFree (pyDumpMembers (k + 1) (m :: ms)) :=
            ihM (m :: ms) (k + 1) (by omega) (by omega)
          refine nlBraceFree_append_snd _ _ ?_ ?_ ?_
          · refine nlBraceFree_cons_snd _ _ ?_ ?_
            · refine nlBraceFree_cons_snd _ _ ?_ ?_
              · exact nlBraceFree_append_fst _ _ (nlBraceFree_jindent _) hM
                  (jindent_getLast_ne_nl _)
              · intro y hy
                rw [jindent_succ_head] at hy
                simp only [Option.mem_def, Option.some.injEq] at hy
                rw [← hy]
                decide
            · intro y hy
              simp only [List.head?_cons, Option.mem_def, Option.some.injEq] at hy
              rw [← hy]
              decide
          · refine nlBraceFree_cons_snd _ _ ?_ (jindent_close_head k '}' (by decide))
            exact nlBraceFree_append_fst _ _ (nlBraceFree_jindent _)
              (List.chain'_singleton _) (jindent_getLast_ne_nl _)
          · intro y hy
            simp only [List.head?_cons, Option.mem_def, Option.some.injEq] at hy
            rw [← hy]
            decide
    · intro ms k h hk
      cases ms with
      | nil => exact List.chain'_nil
      | cons m rest =>
        obtain ⟨key, v⟩ := m
        cases rest with
        | nil =>
          rw [jfuelM] at h
          rw [pyDumpMembers]
          refine nlBraceFree_append_snd _ _ (nlBraceFree_quoteStr key) ?_ ?_
          · exact nlBraceFree_cons_fst _ _
              (nlBraceFree_cons_fst _ _ (ihV v k (by omega)) (by decide)) (by decide)
          · intro y hy
            simp only [List.head?_cons, Option.mem_def, Option.some.injEq] at hy
            rw [← hy]
            decide
        | cons m2 ms2 =>
          rw [jfuelM] at h
          rw [pyDumpMembers]
          have hrest : nlBraceFree (pyDumpMembers k (m2 :: ms2)) :=
            ihM (m2 :: ms2) k (by omega) hk
          refine nlBraceFree_append_snd _ _ ?_ ?_ ?_
          · refine nlBraceFree_append_snd _ _ (nlBraceFree_quoteStr key) ?_ ?_
            · exact nlBraceFree_cons_fst _ _
                (nlBraceFree_cons_fst _ _ (ihV v k (by omega)) (by decide)) (by decide)
            · intro y hy
              simp only [List.head?_cons, Option.mem_def, Option.some.injEq] at hy
              rw [← hy]
              decide
          · refine nlBraceFree_cons_fst _ _ (nlBraceFree_cons_snd _ _ ?_ ?_)
              (by decide)
            · exact nlBraceFree_append_fst _ _ (nlBraceFree_jindent _) hrest
                (jindent_getLast_ne_nl _)
            · intro y hy
              rw [jindent_pos_head k hk] at hy
              simp only [Option.mem_def, Option.some.injEq] at hy
              rw [← hy]
              decide
          · intro y hy
            simp only [List.head?_cons, Option.mem_def, Option.some.injEq] at hy
            rw [← hy]
            decide
    · intro xs k h hk
      cases xs with
      | nil => exact List.chain'_nil
      | cons x rest =>
        cases rest with
        | nil =>
          rw [jfuelI] at h
          rw [pyDumpItems]
          exact ihV x k (by omega)
        | cons x2 xs2 =>
          rw [jfuelI] at h
          rw [pyDumpItems]
          have hrest : nlBraceFree (pyDumpItems k (x2 :: xs2)) :=
            ihI (x2 :: xs2) k (by omega) hk
          refine nlBraceFree_append_snd _ _ (ihV x k (by omega)) ?_ ?_
          · refine nlBraceFree_cons_fst _ _ (nlBraceFree_cons_snd _ _ ?_ ?_)
              (by decide)
            · exact nlBraceFree_append_fst _ _ (nlBraceFree_jindent _) hrest
                (jindent_getLast_ne_nl _)
            · intro y hy
              rw [jindent_pos_head k hk] at hy
              simp only [Option.mem_def, Option.some.injEq] at hy
              rw [← hy]
              decide
          · intro y hy
            simp only [List.head?_cons, Option.mem_def, Option.some.injEq] at hy
            rw [← hy]
            decide

theorem has3_head_prop (a b c : Char) (t : List Char)
    (h : has3 (a :: b :: c :: t) = false) : ¬(a = '}' ∧ b = '\n' ∧ c = '{') := by
  intro hc
  rw [has3, hc.1, hc.2.1, hc.2.2, Bool.or_eq_false_iff] at h
  exact absurd h.1 (by decide)

theorem has3_tail (a b c : Char) (t : List Char)
    (h : has3 (a :: b :: c :: t) = false) : has3 (b :: c :: t) = false := by
  rw [has3, Bool.or_eq_false_iff] at h
  exact h.2

theorem has3_of_nlBraceFree : ∀ l : List Char, nlBraceFree l → has3 l = false
  | [], _ => rfl
  | [_], _ => rfl
  | [_, _], _ => rfl
  | a :: b :: c :: t, h => by
    have h1 := List.chain'_cons.mp h
    have h2 := List.chain'_cons.mp h1.2
    rw [has3, Bool.or_eq_false_iff]
    refine ⟨?_, has3_of_nlBraceFree (b :: c :: t) h1.2⟩
    by_contra hb
    rw [Bool.not_eq_false] at hb
    simp only [Bool.and_eq_true, decide_eq_true_eq] at hb
    exact h2.1 ⟨hb.1.2, hb.2⟩

theorem has3_snoc : ∀ (l : List Char) (c : Char), c ≠ '{' → has3 l = false →
    has3 (l ++ [c]) = false
  | [], _, _, _ => rfl
  | [_], _, _, _ => rfl
  | [a, b], c, hc, _ => by
    have hdec : (decide (c = '{')) = false := decide_eq_false hc
    show ((a = '}' && b = '\n' && c = '{') || has3 [b, c]) = false
    rw [show has3 [b, c] = false from rfl, Bool.or_false]
    simp [hdec]
  | a :: b :: d :: t, c, hc, h => by
    simp only [List.cons_append]
    rw [has3, Bool.or_eq_false_iff]
    have htail : has3 ((b :: d :: t) ++ [c]) = false :=
      has3_snoc (b :: d :: t) c hc (has3_tail a b d t h)
    simp only [List.cons_append] at htail
    refine ⟨?_, htail⟩
    rw [has3, Bool.or_eq_false_iff] at h
    exact h.1

/-- When the file holds no occurrence of the pattern, `str.replace` finds
nothing and returns the string unchanged. -/
theorem braceRepair_id : ∀ l : List Char, has3 l = false → braceRepair l = l
  | [], _ => rfl
  | [_], _ => rfl
  | [_, _], _ => rfl
  | a :: b :: c :: t, h => by
    rw [braceRepair, if_neg (has3_head_prop a b c t h)]
    rw [braceRepair_id (b :: c :: t) (has3_tail a b c t h)]

/-- The left-to-right scan of `str.replace('\x7d\n\x7b', '\x7d,\n\x7b')`:
a prefix free of the pattern is copied verbatim, the seam occurrence is
rewritten, and the scan resumes after the replacement. -/
theorem braceRepair_seam : ∀ (l r : List Char), has3 (l ++ ['}']) = false →
    braceRepair (l ++ '}' :: '\n' :: '{' :: r) =
      l ++ '}' :: ',' :: '\n' :: '{' :: braceRepair r
  | [], r, _ => by
    rw [List.nil_append, List.nil_append, braceRepair, if_pos ⟨rfl, rfl, rfl⟩]
  | [a], r, _ => by
    simp only [List.cons_append, List.nil_append]
    rw [braceRepair, if_neg (show ¬(a = '}' ∧ ('}' : Char) = '\n' ∧ ('\n' : Char) = '{')
      from fun hc => absurd hc.2.1 (by decide))]
    rw [braceRepair, if_pos ⟨rfl, rfl, rfl⟩]
  | [a, b], r, _ => by
    simp only [List.cons_append, List.nil_append]
    rw [braceRepair, if_neg (show ¬(a = '}' ∧ b = '\n' ∧ ('}' : Char) = '{')
      from fun hc => absurd hc.2.2 (by decide))]
    rw [braceRepair, if_neg (show ¬(b = '}' ∧ ('}' : Char) = '\n' ∧ ('\n' : Char) = '{')
      from fun hc => absurd hc.2.1 (by decide))]
    rw [braceRepair, if_pos ⟨rfl, rfl, rfl⟩]
  | a :: b :: c :: t, r, h => by
    simp only [List.cons_append] at h ⊢
    rw [braceRepair, if_neg (has3_head_prop a b c (t ++ ['}']) h)]
    have hrec := braceRepair_seam (b :: c :: t) r (has3_tail a b c (t ++ ['}']) h)
    simp only [List.cons_append] at hrec
    rw [hrec]

theorem has3_of_cons : ∀ (a : Char) (l : List Char), has3 (a :: l) = false →
    has3 l = false
  | _, [], _ => rfl
  | _, [_], _ => rfl
  | a, b :: c :: t, h => has3_tail a b c t h

theorem jindent_zero : jindent 0 = [] := rfl

theorem has3_pyDump (j : Jval) (k : Nat) : has3 (pyDump k j) = false :=
  has3_of_nlBraceFree _ ((pyDump_nlBraceFree (jfuelV j)).1 j k le_rfl)

/-- Appending two nonempty objects to an empty log and running the repair
yields exactly the comma-joined item list of the two dumps, newline-terminated:
the only occurrence of the pattern is the seam between the two records. -/
theorem braceRepair_log_pair (a b : List Char × Jval) (as bs : List (List Char × Jval)) :
    braceRepair (log_communication (log_communication []
        (Jval.obj (a :: as))) (Jval.obj (b :: bs)))
      = pyDumpItems 0 [Jval.obj (a :: as), Jval.obj (b :: bs)] ++ ['\n'] := by
  have hsplit : log_communication (log_communication [] (Jval.obj (a :: as)))
      (Jval.obj (b :: bs))
      = (('{' :: '\n' :: (jindent 1 ++ pyDumpMembers 1 (a :: as))) ++ ['\n']) ++
        '}' :: '\n' :: '{' ::
        ((('\n' :: (jindent 1 ++ pyDumpMembers 1 (b :: bs))) ++
          '\n' :: (jindent 0 ++ ['}'])) ++ ['\n']) := by
    rw [log_communication, log_communication, List.nil_append, pyDump, pyDump]
    simp [List.append_assoc, jindent_zero]
  have hL : (('{' :: '\n' :: (jindent 1 ++ pyDumpMembers 1 (a :: as))) ++ ['\n']) ++ ['}']
      = pyDump 0 (Jval.obj (a :: as)) := by
    rw [pyDump]
    simp [List.append_assoc, jindent_zero]
  have hR : pyDump 0 (Jval.obj (b :: bs))
      = '{' :: (('\n' :: (jindent 1 ++ pyDumpMembers 1 (b :: bs))) ++
          '\n' :: (jindent 0 ++ ['}'])) := by
    rw [pyDump]
    simp [List.append_assoc]
  have hhas1 : has3 ((('{' :: '\n' :: (jindent 1 ++ pyDumpMembers 1 (a :: as))) ++
      ['\n']) ++ ['}']) = false := by
    rw [hL]
    exact has3_pyDump _ 0
  have hhas2 : has3 ((('\n' :: (jindent 1 ++ pyDumpMembers 1 (b :: bs))) ++
      '\n' :: (jindent 0 ++ ['}'])) ++ ['\n']) = false := by
    refine has3_snoc _ '\n' (by decide) ?_
    refine has3_of_cons '{' _ ?_
    rw [← hR]
    exact has3_pyDump _ 0
  rw [hsplit, braceRepair_seam _ _ hhas1, braceRepair_id _ hhas2]
  rw [pyDumpItems, pyDumpItems, pyDump, pyDump]
  simp [List.append_assoc, jindent_zero]

/-- Parsing a bracket-wrapped nonempty item list at indentation level 0. -/
theorem pyLoads_wrap_items (x0 : Jval) (xs0 : List Jval) :
    pyLoads ('[' :: (pyDumpItems 0 (x0 :: xs0) ++ '\n' :: [']']))
      = some (Jval.arr (x0 :: xs0)) := by
  obtain ⟨c, t, hct, hws, hbr, _⟩ := pyDumpItems_head 0 x0 xs0
  have hr : pyDumpItems 0 (x0 :: xs0) ++ '\n' :: [']'] = c :: (t ++ '\n' :: [']']) := by
    rw [hct, List.cons_append]
  rw [pyLoads, skipJsonWs_not_ws '[' _ (by decide), List.length_cons, parseVal_obracket]
  rw [hr, skipJsonWs_not_ws c _ hws]
  rw [if_neg (by rw [List.head?_cons]; intro hcc; exact hbr (Option.some.inj hcc))]
  rw [← hr]
  have hfuel : jfuelI (x0 :: xs0)
      ≤ (pyDumpItems 0 (x0 :: xs0) ++ '\n' :: [']']).length + 1 := by
    have := (jfuel_le_dump_length (jfuelI (x0 :: xs0))).2.2 (x0 :: xs0) 0 le_rfl
    rw [List.length_append]
    omega
  have hitems := (parse_pyDump ((pyDumpItems 0 (x0 :: xs0) ++ '\n' :: [']']).length + 1)).2.2
    (x0 :: xs0) 0 [] [] (by simp) hfuel (by simp)
  simp only [List.nil_append] at hitems
  rw [hitems]
  simp only [Option.map_some']
  rw [if_pos (show skipJsonWs ([] : List Char) = [] from rfl)]

/-- Loading a log holding exactly two object records. -/
theorem load_all_pair (a b : List Char × Jval) (as bs : List (List Char × Jval)) :
    load_all (log_communication (log_communication [] (Jval.obj (a :: as)))
        (Jval.obj (b :: bs)))
      = some [Jval.obj (a :: as), Jval.obj (b :: bs)] := by
  rw [load_all, braceRepair_log_pair]
  rw [show (pyDumpItems 0 [Jval.obj (a :: as), Jval.obj (b :: bs)] ++ ['\n']) ++ [']']
      = pyDumpItems 0 [Jval.obj (a :: as), Jval.obj (b :: bs)] ++ '\n' :: [']']
    from by simp]
  rw [pyLoads_wrap_items]

/-- Looking up `chat_id` in a packed message record. -/
theorem dictGet_logMsgJson (m : LogMsg) :
    dictGet (logMsgJson m) chatIdKey = some (Jval.str m.chat_id) := rfl

/-- Grouping two records of the same chat: the second lookup hits the existing
entry and appends in order. -/
theorem group_by_chat_pair (m1 m2 : LogMsg) (h : m1.chat_id = m2.chat_id) :
    group_by_chat [logMsgJson m1, logMsgJson m2]
      = some [(m1.chat_id, [logMsgJson m1, logMsgJson m2])] := by
  have hstep : groupStep [(m1.chat_id, [logMsgJson m1])] (logMsgJson m2)
      = some [(m1.chat_id, [logMsgJson m1, logMsgJson m2])] := by
    rw [groupStep, dictGet_logMsgJson, ← h]
    dsimp only
    rw [if_pos (by simp)]
    simp
  rw [group_by_chat, groupByChatFrom,
    show groupStep [] (logMsgJson m1) = some [(m1.chat_id, [logMsgJson m1])] from rfl]
  dsimp only
  rw [groupByChatFrom, hstep]
  dsimp only
  rw [groupByChatFrom]

/-- C1: Log round-trip.  Appending two messages of the same chat to an empty
log — each serialized by `json.dumps(..., indent=4)` followed by a newline —
then loading the file with the repair step (replace every literal
closing-brace/newline/opening-brace run with its comma-joined form, wrap in
brackets, parse) yields exactly the two records in order, and grouping by
`chat_id` yields exactly those two records, in order, under that chat id.
This holds for arbitrary field contents, including text containing newlines
and brace characters, because serialized strings never contain a raw newline. -/
theorem C1_log_roundtrip (m1 m2 : LogMsg) (h : m1.chat_id = m2.chat_id) :
    load_all (log_communication (log_communication [] (logMsgJson m1)) (logMsgJson m2))
        = some [logMsgJson m1, logMsgJson m2] ∧
    group_by_chat [logMsgJson m1, logMsgJson m2]
        = some [(m1.chat_id, [logMsgJson m1, logMsgJson m2])] :=
  ⟨load_all_pair _ _ _ _, group_by_chat_pair m1 m2 h⟩

/-- The dispatch loop survives every event — and processes all later
messages — as long as the dealer only ever raises `queue.Empty`, the one
exception class its `except` clause names; the emitted responses are exactly
the successfully dealt messages, in arrival order. -/
theorem dispatch_loop_no_other (dealer : List Char → Except PyExc (List Char))
    (hd : ∀ t cls, dealer t ≠ Except.error (PyExc.other cls))
    (events : List RecvEvent) :
    (dispatch_loop dealer events).2 = false ∧
    (dispatch_loop dealer events).1 = events.filterMap (fun e =>
      match e with
      | .timeout => none
      | .msg m =>
        match dealer m.text with
        | .ok t => some { m with text := t }
        | _ => none) := by
  induction events with
  | nil => exact ⟨rfl, rfl⟩
  | cons e rest ih =>
    cases e with
    | timeout =>
      rw [dispatch_loop, List.filterMap_cons]
      dsimp only
      exact ih
    | msg m =>
      rw [dispatch_loop, List.filterMap_cons]
      cases hdm : dealer m.text with
      | ok t =>
        dsimp only
        rw [hdm]
        dsimp only
        exact ⟨ih.1, by rw [ih.2]⟩
      | error e2 =>
        cases e2 with
        | queueEmpty =>
          dsimp only
          rw [hdm]
          dsimp only
          exact ih
        | other cls => exact absurd hdm (hd m.text cls)

/-- C2 counterexample: a dealer that raises an exception other than
`queue.Empty` on the first message makes `run` terminate — the second
message is never processed and nothing is emitted, refuting the claim that
any in-dealer exception is caught and the loop continues. -/
theorem C2_crash_on_other :
    dispatch_loop (fun _ => Except.error (PyExc.other "ValueError".data))
        [RecvEvent.msg witRMsgA, RecvEvent.msg witRMsgB] = ([], true) ∧
    dispatch_loop (pure_dealer default_dealer)
        [RecvEvent.msg witRMsgA, RecvEvent.msg witRMsgB]
      = ([single_response default_dealer witRMsgA,
          single_response default_dealer witRMsgB], false) := by
  constructor
  · rfl
  · rfl

/-- C2 (amended): per-message isolation holds only for `queue.Empty`, the
single exception class the dispatch loop's `except` clause names: if the
dealer raises nothing but `queue.Empty`, every raising message is skipped,
the loop keeps running, and all successfully dealt messages come out in
order. -/
theorem C2_dispatch_isolation (dealer : List Char → Except PyExc (List Char))
    (hd : ∀ t cls, dealer t ≠ Except.error (PyExc.other cls))
    (events : List RecvEvent) :
    (dispatch_loop dealer events).2 = false ∧
    (dispatch_loop dealer events).1 = events.filterMap (fun e =>
      match e with
      | .timeout => none
      | .msg m =>
        match dealer m.text with
        | .ok t => some { m with text := t }
        | _ => none) :=
  dispatch_loop_no_other dealer hd events

/-- Witness for C2 at a dealer that raises `queue.Empty` on the second
message's text: the loop survives and emits only the first response. -/
theorem C2_dispatch_isolation_witness :
    (∀ t cls, witDealer t ≠ Except.error (PyExc.other cls)) ∧
    ((dispatch_loop witDealer
        [RecvEvent.msg witRMsgA, RecvEvent.msg witRMsgB, RecvEvent.timeout]).2 = false ∧
     (dispatch_loop witDealer
        [RecvEvent.msg witRMsgA, RecvEvent.msg witRMsgB, RecvEvent.timeout]).1
       = [RecvEvent.msg witRMsgA, RecvEvent.msg witRMsgB,
          RecvEvent.timeout].filterMap (fun e =>
            match e with
            | .timeout => none
            | .msg m =>
              match witDealer m.text with
              | .ok t => some { m with text := t }
              | _ => none)) :=
  ⟨fun t cls => by rw [witDealer]; split_ifs <;> simp,
   C2_dispatch_isolation witDealer
     (fun t cls => by rw [witDealer]; split_ifs <;> simp)
     [RecvEvent.msg witRMsgA, RecvEvent.msg witRMsgB, RecvEvent.timeout]⟩

/-- C3 counterexample: with the default dealer installed, the message a
timed event emits for the template text `'hello'` differs from what the
dispatch loop produces for the same message arriving on the inbound queue —
the timer path applies `_action_then_response`, not the installed
`message_dealer`. -/
theorem C3_timer_bypasses_dealer :
    timed_event_handler (timer_template "hello".data) [(false, "12:00:00".data)]
      ≠ (dispatch_loop (pure_dealer default_dealer)
          [RecvEvent.msg (timer_template "hello".data)]).1 := by
  decide

/-- C3 (amended): the timer thread never consults the installed
`message_dealer`; each uninterrupted interval it puts
`_action_then_response(message)` directly on `send_queue`, so its trace is
the per-interval `_action_then_response` transform of the template, up to
the first interrupted wait. -/
theorem C3_timer_trace (message : RMsg) (waits : List (Bool × List Char)) :
    timed_event_handler message waits
      = (waits.takeWhile (fun w => !w.1)).map
          (fun w => action_then_response w.2 message) := by
  induction waits with
  | nil => rfl
  | cons w rest ih =>
    obtain ⟨b, now⟩ := w
    cases b with
    | true => simp [timed_event_handler, List.takeWhile_cons]
    | false => simp [timed_event_handler, List.takeWhile_cons, ih]

/-- A group message is addressed to the bot exactly when the first mention's
display name matches the bot's name. -/
theorem is_at_user_iff (msg : CMsg) (name : List Char) :
    is_at_user msg name = true ↔
      ∃ m ms, msg.mentions = m :: ms ∧ m.display_name = name := by
  rw [is_at_user]
  cases hm : msg.mentions with
  | nil => simp
  | cons m0 ms0 => simp

/-- C4: the reply decision — `True` for a direct chat; for a group chat,
true exactly when the first mention's display name equals the bot's name,
case-sensitively; for any other `chat_type` the function returns `None`
without raising, which counts as "do not reply". -/
theorem C4_needs_reply (name : List Char) (msg : CMsg) :
    (msg.chat_type = "p2p".data → is_need_to_reply name msg = some true) ∧
    (msg.chat_type = "group".data →
      (is_need_to_reply name msg = some true ↔
        ∃ m ms, msg.mentions = m :: ms ∧ m.display_name = name)) ∧
    (msg.chat_type ≠ "p2p".data → msg.chat_type ≠ "group".data →
      is_need_to_reply name msg = none ∧
      pyTruthy (is_need_to_reply name msg) = false) := by
  refine ⟨?_, ?_, ?_⟩
  · intro h
    rw [is_need_to_reply, if_pos h]
  · intro h
    have hne : msg.chat_type ≠ "p2p".data := by rw [h]; decide
    rw [is_need_to_reply, if_neg hne, if_pos h, Option.some_inj]
    exact is_at_user_iff msg name
  · intro h1 h2
    rw [is_need_to_reply, if_neg h1, if_neg h2]
    exact ⟨rfl, rfl⟩

/-- Witness for C4 at a direct chat, a group chat with the bot mentioned
first, and an unforeseen chat type. -/
theorem C4_needs_reply_witness :
    witP2p.chat_type = "p2p".data ∧
    is_need_to_reply "Kiwi".data witP2p = some true ∧
    witGroupAt.chat_type = "group".data ∧
    is_need_to_reply "Kiwi".data witGroupAt = some true ∧
    (witOddType.chat_type ≠ "p2p".data ∧ witOddType.chat_type ≠ "group".data) ∧
    (is_need_to_reply "Kiwi".data witOddType = none ∧
      pyTruthy (is_need_to_reply "Kiwi".data witOddType) = false) :=
  ⟨rfl,
   (C4_needs_reply "Kiwi".data witP2p).1 rfl,
   rfl,
   ((C4_needs_reply "Kiwi".data witGroupAt).2.1 rfl).mpr
     ⟨{ key := "@_user_1".data, display_name := "Kiwi".data, tenant_key := "t".data },
      [], rfl, rfl⟩,
   ⟨by decide, by decide⟩,
   (C4_needs_reply "Kiwi".data witOddType).2.2 (by decide) (by decide)⟩

/-- C5: the context window — whatever `max_num` is passed, the builder
returns the slice `[-3:]` of the chat's history: a suffix of length
`min N 3`, the whole history when it has at most three messages, and `[]`
when the chat has none. -/
theorem C5_history_window (hist : History) (msg : CMsg) (n : Nat) :
    get_history_content hist msg n = get_history_content hist msg 3 ∧
    (∀ ms, histGet hist msg.chat_id = some ms →
      (∃ pre, pre ++ get_history_content hist msg n = ms) ∧
      (get_history_content hist msg n).length = min ms.length 3 ∧
      (ms.length ≤ 3 → get_history_content hist msg n = ms)) ∧
    (histGet hist msg.chat_id = none → get_history_content hist msg n = []) := by
  refine ⟨rfl, ?_, ?_⟩
  · intro ms hms
    rw [get_history_content, hms]
    dsimp only
    refine ⟨⟨ms.take (ms.length - 3), List.take_append_drop _ _⟩, ?_, ?_⟩
    · rw [List.length_drop]
      omega
    · intro hle
      rw [show ms.length - 3 = 0 from by omega, List.drop_zero]
  · intro hms
    rw [get_history_content, hms]

/-- Witness for C5 on a chat with four recorded messages and an ignored
`max_num` of 99: the window is the last three. -/
theorem C5_history_window_witness :
    histGet witHist witP2p.chat_id
        = some [witP2p, witGroupAt, witGroupOther, witOddType] ∧
    (∃ pre, pre ++ get_history_content witHist witP2p 99
        = [witP2p, witGroupAt, witGroupOther, witOddType]) ∧
    get_history_content witHist witP2p 99
        = [witGroupAt, witGroupOther, witOddType] :=
  ⟨rfl,
   ((C5_history_window witHist witP2p 99).2.1 _ rfl).1,
   rfl⟩

/-- C7 counterexample: the legacy `conn_macaca.py` dispatch loop rewrites
the in-flight message's own `content['text']` — the original is changed
after the response is produced. -/
theorem C7_macaca_mutates_in_flight :
    ((macaca_run_step witHeap witHMsg).cells witHMsg.contentRef).text
      ≠ (witHeap.cells witHMsg.contentRef).text := by
  decide

/-- C7 (amended): `conn_router.py`'s `_single_response` builds the reply on
a deep copy — the original message's content cell is untouched, the reply
references a fresh cell, and only that fresh cell carries the dealt text. -/
theorem C7_single_response_copies (dealer : List Char → List Char) (h : Heap)
    (m : HMsg) (hm : m.contentRef < h.next) :
    (single_response_heap dealer h m).1.cells m.contentRef = h.cells m.contentRef ∧
    (single_response_heap dealer h m).2.contentRef ≠ m.contentRef ∧
    (single_response_heap dealer h m).2.chat_id = m.chat_id ∧
    ((single_response_heap dealer h m).1.cells
        (single_response_heap dealer h m).2.contentRef).text
      = dealer ((h.cells m.contentRef).text) := by
  have hne : m.contentRef ≠ h.next := Nat.ne_of_lt hm
  refine ⟨?_, ?_, rfl, ?_⟩
  · rw [single_response_heap]
    simp [heap_deepcopy, heap_set_text, hne]
  · rw [single_response_heap]
    simp [heap_deepcopy, heap_set_text]
    omega
  · rw [single_response_heap]
    simp [heap_deepcopy, heap_set_text]

/-- Witness for C7 on the one-cell heap: the original text survives and the
reply's fresh cell holds the dealt text. -/
theorem C7_single_response_copies_witness :
    witHMsg.contentRef < witHeap.next ∧
    ((single_response_heap default_dealer witHeap witHMsg).1.cells
        witHMsg.contentRef = witHeap.cells witHMsg.contentRef ∧
     (single_response_heap default_dealer witHeap witHMsg).2.contentRef
        ≠ witHMsg.contentRef ∧
     (single_response_heap default_dealer witHeap witHMsg).2.chat_id
        = witHMsg.chat_id ∧
     ((single_response_heap default_dealer witHeap witHMsg).1.cells
        (single_response_heap default_dealer witHeap witHMsg).2.contentRef).text
      = default_dealer ((witHeap.cells witHMsg.contentRef).text)) :=
  ⟨by decide, C7_single_response_copies default_dealer witHeap witHMsg (by decide)⟩

theorem unregister_not_present (s : RouterState) (tid : Nat)
    (h : s.timed_events tid = none) : unregister_timed_event s tid = s := by
  rw [unregister_timed_event, h]

theorem unregister_deletes (s : RouterState) (tid : Nat) :
    (unregister_timed_event s tid).timed_events tid = none := by
  cases hm : s.timed_events tid with
  | none => rw [unregister_not_present s tid hm, hm]
  | some v =>
    obtain ⟨iv, msg, ev⟩ := v
    rw [unregister_timed_event, hm]
    dsimp only
    rw [if_pos rfl]

/-- C8: cancelling a handle twice equals cancelling it once, and cancelling
a handle with no `timed_events` entry — never issued, or already cancelled —
is a no-op that raises nothing. -/
theorem C8_unregister_idempotent (s : RouterState) (tid : Nat) :
    unregister_timed_event (unregister_timed_event s tid) tid
        = unregister_timed_event s tid ∧
    (s.timed_events tid = none → unregister_timed_event s tid = s) :=
  ⟨unregister_not_present _ _ (unregister_deletes s tid),
   fun h => unregister_not_present s tid h⟩

/-- Witness for C8: after one registration, handle 5 was never issued and
unregistering it changes nothing. -/
theorem C8_unregister_idempotent_witness :
    (register_timed_event router_init 60 "u".data "time".data).2.timed_events 5
        = none ∧
    unregister_timed_event
        (register_timed_event router_init 60 "u".data "time".data).2 5
      = (register_timed_event router_init 60 "u".data "time".data).2 :=
  ⟨rfl,
   (C8_unregister_idempotent
     (register_timed_event router_init 60 "u".data "time".data).2 5).2 rfl⟩

/-- C9: cancelling before the first interval elapses — `unregister` sets the
registered event's flag, and a timer whose first `event.wait` is interrupted
puts nothing on the outbound queue. -/
theorem C9_cancel_before_first (s : RouterState) (tid iv ev : Nat) (msg : RMsg)
    (h : s.timed_events tid = some (iv, msg, ev))
    (message : RMsg) (waits : List (Bool × List Char))
    (hfirst : ∀ w ∈ waits.head?, w.1 = true) :
    (unregister_timed_event s tid).event_set ev = true ∧
    timed_event_handler message waits = [] := by
  constructor
  · rw [unregister_timed_event, h]
    dsimp only
    rw [if_pos rfl]
  · cases waits with
    | nil => rfl
    | cons w rest =>
      obtain ⟨b, now⟩ := w
      have hb : b = true := hfirst (b, now) rfl
      rw [hb, timed_event_handler, if_pos rfl]

/-- Witness for C9 at the first registered timer, its first wait
interrupted. -/
theorem C9_cancel_before_first_witness :
    (register_timed_event router_init 60 "u".data "time".data).2.timed_events 0
        = some (60, timer_template "time".data, 0) ∧
    ((unregister_timed_event
        (register_timed_event router_init 60 "u".data "time".data).2 0).event_set 0
        = true ∧
     timed_event_handler (timer_template "time".data) [(true, "t0".data)] = []) :=
  ⟨rfl,
   C9_cancel_before_first _ 0 60 0 (timer_template "time".data) rfl
     (timer_template "time".data) [(true, "t0".data)]
     (fun w hw => by cases hw; rfl)⟩

theorem histGet_map_upd : ∀ (hist : History) (cid : List Char) (m : CMsg)
    (ms : List CMsg), histGet hist cid = some ms →
    histGet (hist.map (fun kv => if kv.1 = cid then (kv.1, kv.2 ++ [m]) else kv)) cid
      = some (ms ++ [m])
  | [], _, _, _, h => by rw [histGet] at h; cases h
  | (k, vs) :: rest, cid, m, ms, h => by
    rw [histGet] at h
    rw [List.map_cons]
    dsimp only
    by_cases hk : k = cid
    · rw [if_pos hk] at h
      rw [if_pos hk, histGet, if_pos hk, Option.some_inj.mp h]
    · rw [if_neg hk] at h
      rw [if_neg hk, histGet, if_neg hk]
      exact histGet_map_upd rest cid m ms h

theorem histGet_map_upd_other : ∀ (hist : History) (cid cid2 : List Char) (m : CMsg),
    cid2 ≠ cid →
    histGet (hist.map (fun kv => if kv.1 = cid then (kv.1, kv.2 ++ [m]) else kv)) cid2
      = histGet hist cid2
  | [], _, _, _, _ => rfl
  | (k, vs) :: rest, cid, cid2, m, hne => by
    rw [List.map_cons]
    dsimp only
    by_cases hk : k = cid
    · rw [if_pos hk, histGet, histGet,
        if_neg (show ¬k = cid2 from by rw [hk]; exact fun hc => hne hc.symm),
        if_neg (show ¬k = cid2 from by rw [hk]; exact fun hc => hne hc.symm)]
      exact histGet_map_upd_other rest cid cid2 m hne
    · rw [if_neg hk, histGet, histGet]
      by_cases hk2 : k = cid2
      · rw [if_pos hk2, if_pos hk2]
      · rw [if_neg hk2, if_neg hk2]
        exact histGet_map_upd_other rest cid cid2 m hne

theorem histGet_append_new : ∀ (hist : History) (cid : List Char)
    (entry : List Char × List CMsg), histGet hist cid = none →
    histGet (hist ++ [entry]) cid = histGet [entry] cid
  | [], _, _, _ => by rw [List.nil_append]
  | (k, vs) :: rest, cid, e, h => by
    rw [histGet] at h
    rw [List.cons_append, histGet]
    by_cases hk : k = cid
    · rw [if_pos hk] at h
      cases h
    · rw [if_neg hk] at h
      rw [if_neg hk]
      exact histGet_append_new rest cid e h

theorem histGet_append_other : ∀ (hist : History) (cid cid2 : List Char)
    (ms : List CMsg), cid2 ≠ cid →
    histGet (hist ++ [(cid, ms)]) cid2 = histGet hist cid2
  | [], cid, cid2, ms, hne => by
    rw [List.nil_append, histGet, histGet, if_neg (fun hc => hne hc.symm), histGet]
  | (k, vs) :: rest, cid, cid2, ms, hne => by
    rw [List.cons_append, histGet, histGet]
    by_cases hk : k = cid2
    · rw [if_pos hk, if_pos hk]
    · rw [if_neg hk, if_neg hk]
      exact histGet_append_other rest cid cid2 ms hne

/-- `append_to_history` files the message under its own chat id, at the end
of that chat's list. -/
theorem histGet_append_to_history_self (hist : History) (m : CMsg) :
    histGet (append_to_history hist m) m.chat_id
      = some ((histGet hist m.chat_id).getD [] ++ [m]) := by
  rw [append_to_history]
  by_cases hs : (histGet hist m.chat_id).isSome
  · rw [if_pos hs]
    obtain ⟨ms, hms⟩ := Option.isSome_iff_exists.mp hs
    rw [hms, Option.getD_some]
    exact histGet_map_upd hist m.chat_id m ms hms
  · rw [if_neg hs]
    have hn : histGet hist m.chat_id = none := Option.not_isSome_iff_eq_none.mp hs
    rw [hn, Option.getD_none, List.nil_append,
      histGet_append_new hist m.chat_id (m.chat_id, [m]) hn, histGet, if_pos rfl]

/-- `append_to_history` leaves every other chat's list unchanged. -/
theorem histGet_append_to_history_other (hist : History) (m : CMsg)
    (cid : List Char) (hne : cid ≠ m.chat_id) :
    histGet (append_to_history hist m) cid = histGet hist cid := by
  rw [append_to_history]
  by_cases hs : (histGet hist m.chat_id).isSome
  · rw [if_pos hs]
    exact histGet_map_upd_other hist m.chat_id cid m hne
  · rw [if_neg hs]
    have hn : histGet hist m.chat_id = none := Option.not_isSome_iff_eq_none.mp hs
    rw [histGet_append_other hist m.chat_id cid [m] hne]

/-- C6: the no-reply path — when the reply decision is falsy,
`deal_message` returns `None` (no send), appends exactly the inbound
message to its chat's history, and leaves every other chat's history
unchanged. -/
theorem C6_no_reply (env : DealerEnv) (name : List Char) (hist : History)
    (msg : CMsg) (h : pyTruthy (is_need_to_reply name msg) = false) :
    deal_message env name hist msg = some (none, append_to_history hist msg) ∧
    histGet (append_to_history hist msg) msg.chat_id
      = some ((histGet hist msg.chat_id).getD [] ++ [msg]) ∧
    (∀ cid, cid ≠ msg.chat_id →
      histGet (append_to_history hist msg) cid = histGet hist cid) := by
  refine ⟨?_, histGet_append_to_history_self hist msg,
    fun cid hne => histGet_append_to_history_other hist msg cid hne⟩
  rw [deal_message, if_neg (by rw [h]; simp)]

/-- Witness for C6 at a message of unforeseen chat type and an empty
history. -/
theorem C6_no_reply_witness :
    pyTruthy (is_need_to_reply "Kiwi".data witOddType) = false ∧
    (deal_message witEnv "Kiwi".data [] witOddType
        = some (none, append_to_history [] witOddType) ∧
     histGet (append_to_history [] witOddType) witOddType.chat_id
        = some ((histGet [] witOddType.chat_id).getD [] ++ [witOddType]) ∧
     (∀ cid, cid ≠ witOddType.chat_id →
        histGet (append_to_history [] witOddType) cid = histGet [] cid)) :=
  ⟨rfl, C6_no_reply witEnv "Kiwi".data [] witOddType rfl⟩

/-- One grouping step preserves the keying invariant: the message lands
under exactly the chat id its own `chat_id` field names. -/
theorem groupStep_keyed (acc : List (List Char × List Jval)) (m : Jval)
    (acc2 : List (List Char × List Jval)) (hacc : GroupsKeyed acc)
    (h : groupStep acc m = some acc2) : GroupsKeyed acc2 := by
  rw [groupStep] at h
  cases hd : dictGet m chatIdKey with
  | none =>
    rw [hd] at h
    cases h
  | some v =>
    rw [hd] at h
    cases v with
    | str cid =>
      dsimp only at h
      split_ifs at h with hc
      · obtain rfl := Option.some_inj.mp h
        intro cid2 ms2 hmem j hj
        obtain ⟨kv, hkv, hfkv⟩ := List.mem_map.mp hmem
        obtain ⟨k0, ms0⟩ := kv
        dsimp only at hfkv
        by_cases hk : k0 = cid
        · rw [if_pos hk] at hfkv
          injection hfkv with h1 h2
          subst h1
          subst h2
          rcases List.mem_append.mp hj with hj0 | hj1
          · exact hacc k0 ms0 hkv j hj0
          · rw [List.mem_singleton.mp hj1, hk]
            exact hd
        · rw [if_neg hk] at hfkv
          injection hfkv with h1 h2
          subst h1
          subst h2
          exact hacc k0 ms0 hkv j hj
      · obtain rfl := Option.some_inj.mp h
        intro cid2 ms2 hmem j hj
        rcases List.mem_append.mp hmem with hin | hnew
        · exact hacc cid2 ms2 hin j hj
        · have h12 := List.mem_singleton.mp hnew
          injection h12 with h1 h2
          subst h1
          subst h2
          rw [List.mem_singleton.mp hj]
          exact hd
    | null => dsimp only at h; cases h
    | bool b => dsimp only at h; cases h
    | int n => dsimp only at h; cases h
    | arr xs => dsimp only at h; cases h
    | obj ms => dsimp only at h; cases h

/-- The grouping loop preserves the keying invariant. -/
theorem groupByChatFrom_keyed : ∀ (msgs : List Jval)
    (acc groups : List (List Char × List Jval)), GroupsKeyed acc →
    groupByChatFrom acc msgs = some groups → GroupsKeyed groups
  | [], acc, groups, hacc, h => by
    rw [groupByChatFrom] at h
    obtain rfl := Option.some_inj.mp h
    exact hacc
  | m :: rest, acc, groups, hacc, h => by
    rw [groupByChatFrom] at h
    cases hs : groupStep acc m with
    | none =>
      rw [hs] at h
      dsimp only at h
      cases h
    | some acc2 =>
      rw [hs] at h
      dsimp only at h
      exact groupByChatFrom_keyed rest acc2 groups
        (groupStep_keyed acc m acc2 hacc hs) h

/-- `append_to_history` preserves the keying invariant of the in-memory
history dict. -/
theorem append_to_history_keyed (hist : History) (msg : CMsg)
    (h : HistKeyed hist) : HistKeyed (append_to_history hist msg) := by
  rw [append_to_history]
  by_cases hs : (histGet hist msg.chat_id).isSome
  · rw [if_pos hs]
    intro k ms hmem m hm
    obtain ⟨kv, hkv, hfkv⟩ := List.mem_map.mp hmem
    obtain ⟨k0, ms0⟩ := kv
    dsimp only at hfkv
    by_cases hk : k0 = msg.chat_id
    · rw [if_pos hk] at hfkv
      injection hfkv with h1 h2
      subst h1
      subst h2
      rcases List.mem_append.mp hm with hm0 | hm1
      · exact h k0 ms0 hkv m hm0
      · rw [List.mem_singleton.mp hm1]
        exact hk.symm
    · rw [if_neg hk] at hfkv
      injection hfkv with h1 h2
      subst h1
      subst h2
      exact h k0 ms0 hkv m hm
  · rw [if_neg hs]
    intro k ms hmem m hm
    rcases List.mem_append.mp hmem with hin | hnew
    · exact h k ms hin m hm
    · have h12 := List.mem_singleton.mp hnew
      injection h12 with h1 h2
      subst h1
      subst h2
      rw [List.mem_singleton.mp hm]

/-- C10: the history keying invariant — a grouping loaded from the log file
files every parsed record under its own `chat_id`, and every
`append_to_history` call preserves the invariant on the in-memory history. -/
theorem C10_history_keying (msgs : List Jval)
    (groups : List (List Char × List Jval))
    (hg : group_by_chat msgs = some groups) :
    GroupsKeyed groups ∧
    ∀ (hist : History) (msg : CMsg), HistKeyed hist →
      HistKeyed (append_to_history hist msg) :=
  ⟨groupByChatFrom_keyed msgs [] groups
      (fun _ _ hmem => absurd hmem (List.not_mem_nil _)) hg,
   fun hist msg hh => append_to_history_keyed hist msg hh⟩

/-- Witness for C10 at a one-record log grouping. -/
theorem C10_history_keying_witness :
    group_by_chat [logMsgJson witMsg1]
        = some [("oc_wit_chat".data, [logMsgJson witMsg1])] ∧
    (GroupsKeyed [("oc_wit_chat".data, [logMsgJson witMsg1])] ∧
     ∀ (hist : History) (msg : CMsg), HistKeyed hist →
       HistKeyed (append_to_history hist msg)) :=
  ⟨rfl, C10_history_keying [logMsgJson witMsg1] _ rfl⟩

/-- Witness for C1 at two concrete messages of the same chat whose text
contains a closing brace, a raw newline and an opening brace. -/
theorem C1_log_roundtrip_witness :
    witMsg1.chat_id = witMsg2.chat_id ∧
    (load_all (log_communication (log_communication []
          (logMsgJson witMsg1)) (logMsgJson witMsg2))
        = some [logMsgJson witMsg1, logMsgJson witMsg2] ∧
      group_by_chat [logMsgJson witMsg1, logMsgJson witMsg2]
        = some [(witMsg1.chat_id, [logMsgJson witMsg1, logMsgJson witMsg2])]) :=
  ⟨rfl, C1_log_roundtrip witMsg1 witMsg2 rfl⟩

end Kiwibot
